/-
Verification of the CWV monitoring scripts (scripts/cwv_report.py and
scripts/monitor.py) against their natural-language specification.

The Python code is shallowly embedded: numeric values are modelled as
rationals (the scripts do bounded decimal arithmetic on API-provided
decimals), dictionaries with optional keys become structures with
`Option` fields, and code that catches exceptions and returns a default
is modelled by functions over `Option`-shaped inputs where `none` stands
for the branch in which an exception was raised and caught.
-/
import Mathlib

/-! ## Python `round(x, 2)`

`round` in Python 3 rounds to the nearest multiple of 10^-2, ties going
to the even digit (banker's rounding).  Modelled exactly over ℚ. -/

/-- Round a rational to the nearest integer, ties to even. -/
def roundHalfEven (x : ℚ) : ℤ :=
  let f := ⌊x⌋
  if x - f < 1/2 then f
  else if x - f > 1/2 then f + 1
  else if f % 2 = 0 then f else f + 1

/-- Python `round(x, 2)`: round to two decimal places, ties to even. -/
def pyRound2 (x : ℚ) : ℚ := (roundHalfEven (x * 100) : ℚ) / 100

/-! ## cwv_report.py: histogram parsing and aggregation

`parse_histogram` (cwv_report.py lines 69-80) reads the CrUX 3-bin
histogram of a metric dict.  A bin is `{'start':..,'end':..,'density':..}`;
only `density` is read.  A missing bin contributes 0. -/

/-- One histogram bin; only the `density` field is ever read. -/
structure Bin where
  density : ℚ
deriving DecidableEq, Repr

/-- A metric dict as consumed by `parse_histogram`: the `histogram` key,
defaulting to the empty list (`metric.get("histogram", [])`). -/
structure MetricDict where
  histogram : List Bin
deriving DecidableEq, Repr

/-- `parse_histogram(metric)`: densities of bins 0,1,2 scaled by 100,
missing bins giving 0. -/
def parse_histogram (metric : MetricDict) : ℚ × ℚ × ℚ :=
  let bins := metric.histogram
  let good := match bins.get? 0 with | some b => b.density * 100 | none => 0
  let ni   := match bins.get? 1 with | some b => b.density * 100 | none => 0
  let poor := match bins.get? 2 with | some b => b.density * 100 | none => 0
  (good, ni, poor)

/-- The metrics dict passed to the aggregators: the three CrUX metric
keys, each possibly absent (`metrics.get(key, {})` supplies `{}`). -/
structure MetricsDict where
  largest_contentful_paint : Option MetricDict
  interaction_to_next_paint : Option MetricDict
  cumulative_layout_shift : Option MetricDict
deriving DecidableEq, Repr

/-- `metrics.get(key, {})` for the three keys, in loop order. -/
def MetricsDict.fetched (m : MetricsDict) : List MetricDict :=
  [m.largest_contentful_paint.getD ⟨[]⟩,
   m.interaction_to_next_paint.getD ⟨[]⟩,
   m.cumulative_layout_shift.getD ⟨[]⟩]

/-- Python `min` over a nonempty list, folding from the head. -/
def listMin : ℚ → List ℚ → ℚ
  | a, [] => a
  | a, b :: l => listMin (min a b) l

/-- Python `max` over a nonempty list, folding from the head. -/
def listMax : ℚ → List ℚ → ℚ
  | a, [] => a
  | a, b :: l => listMax (max a b) l

/-- `aggregate(metrics)` (cwv_report.py lines 82-97): worst-case
reduction.  good = min of per-metric goods, poor = max of per-metric
poors, ni = max(0, 100 - good - poor); each rounded to 2 decimals. -/
def aggregate (metrics : MetricsDict) : ℚ × ℚ × ℚ :=
  let parsed := metrics.fetched.map parse_histogram
  let g_list := parsed.map (·.1)
  let p_list := parsed.map (·.2.2)
  let good := match g_list with | [] => 0 | a :: l => listMin a l
  let poor := match p_list with | [] => 0 | a :: l => listMax a l
  let ni := max (0 : ℚ) (100 - good - poor)
  (pyRound2 good, pyRound2 ni, pyRound2 poor)

/-- `aggregate_probabilistic(metrics)` (cwv_report.py lines 99-121):
good = Π goods, poor = 1 - Π (1 - poors) over densities (values/100),
ni = max(0, 1 - good - poor); outputs scaled back by 100 and rounded. -/
def aggregate_probabilistic (metrics : MetricsDict) : ℚ × ℚ × ℚ :=
  let parsed := metrics.fetched.map parse_histogram
  let goods := parsed.map (fun t => t.1 / 100)
  let poors := parsed.map (fun t => t.2.2 / 100)
  let good := goods.foldl (· * ·) 1
  let not_poor := poors.foldl (fun acc p => acc * (1 - p)) 1
  let poor := 1 - not_poor
  let ni := max (0 : ℚ) (1 - good - poor)
  (pyRound2 (good * 100), pyRound2 (ni * 100), pyRound2 (poor * 100))

/-! ## cwv_report.py: point-value classification (`psi_field_status`,
`crux_page_status`, lines 235-298)

Both functions wrap all work in `try/except Exception` and return
`"nodata"` on any failure; the embedding takes an `Option`-shaped
response where `none` stands for the caught-exception branch (network
error, non-2xx via `raise_for_status`, malformed JSON).  Optional
dictionary keys become `Option` fields. -/

/-- The `loadingExperience.metrics` table of a PSI response: each CWV
metric key may be absent; when present, its `percentile` value. -/
structure PsiMetricsTable where
  lcp : Option ℚ
  cls : Option ℚ
  inp : Option ℚ
deriving DecidableEq, Repr

/-- The `loadingExperience` object; its `metrics` key may be absent. -/
structure LoadingExperience where
  metrics : Option PsiMetricsTable
deriving DecidableEq, Repr

/-- A decoded PSI JSON body; `loadingExperience` may be absent. -/
structure PsiResponse where
  loadingExperience : Option LoadingExperience
deriving DecidableEq, Repr

/-- `psi_field_status(url, key, strategy)` (cwv_report.py lines 235-266),
abstracted over the HTTP response.  `none` = exception caught. -/
def psi_field_status (resp : Option PsiResponse) : String :=
  match resp with
  | none => "nodata"
  | some data =>
    match data.loadingExperience with
    | none => "nodata"
    | some le =>
      match le.metrics with
      | none => "nodata"
      | some fd =>
        let lcp := fd.lcp.map (· / 1000)
        let cls := fd.cls.map (· / 100)
        let inp := fd.inp.map (· / 1000)
        match lcp, cls, inp with
        | some l, some c, some i =>
          if l > 4 ∨ i > 1/2 ∨ c > 1/4 then "poor"
          else if l > 5/2 ∨ i > 1/5 ∨ c > 1/10 then "ni"
          else "good"
        | _, _, _ => "nodata"

/-- The `record.metrics` object of a CrUX page-level response: per
metric, the `percentiles.p75` value if the whole key chain is present
(`metrics.get(key, {}).get("percentiles", {}).get("p75")`). -/
structure CruxMetrics where
  lcp : Option ℚ
  inp : Option ℚ
  cls : Option ℚ
deriving DecidableEq, Repr

/-- `crux_page_status(url, key, strategy)` (cwv_report.py lines 268-298),
abstracted over the HTTP response.  `none` = exception caught. -/
def crux_page_status (resp : Option CruxMetrics) : String :=
  match resp with
  | none => "nodata"
  | some m =>
    match m.lcp, m.inp, m.cls with
    | some lcp0, some inp0, some cls0 =>
      let lcp := lcp0 / 1000
      let inp := inp0 / 1000
      let cls := cls0 / 100
      if lcp > 4 ∨ inp > 1/2 ∨ cls > 1/4 then "poor"
      else if lcp > 5/2 ∨ inp > 1/5 ∨ cls > 1/10 then "ni"
      else "good"
    | _, _, _ => "nodata"

/-- Step 2 of `main` (cwv_report.py lines 318-322): drop `"nodata"`
statuses, then count good / ni / poor over the remaining ones. -/
def tallyStatuses (statuses : List String) : ℕ × ℕ × ℕ :=
  let valid := statuses.filter (· ≠ "nodata")
  (valid.count "good", valid.count "ni", valid.count "poor")

/-! ## cwv_report.py: `update_history` (lines 131-144)

The CSV is a list of rows `(date, numeric values)`.  `pd.read_csv`
assigns the row labels 0..n-1; `df[df["date"] != date_str]` keeps the
surviving rows with their labels; `df.loc[len(df)] = new_row` is a
label-based assignment: it overwrites an existing row whose label equals
`len(df)` and only otherwise appends; `sort_values("date")` sorts by the
date string; `tail(28)` keeps the last 28 rows; `to_csv(index=False)`
drops the labels. -/

/-- One labelled dataframe row: (pandas label, (date, values)). -/
abbrev DfRow := ℕ × String × List ℚ

/-- `df.loc[label] = row`: overwrite the row with this label if present
(keeping its position), otherwise append at the end. -/
def pandasLocSet (df : List DfRow) (label : ℕ) (row : String × List ℚ) :
    List DfRow :=
  if df.any (fun r => r.1 = label) then
    df.map (fun r => if r.1 = label then (label, row) else r)
  else df ++ [(label, row)]

/-- Insert a row into a date-sorted list (ascending string order). -/
def insertByDate (x : DfRow) : List DfRow → List DfRow
  | [] => [x]
  | y :: l => if y.2.1 < x.2.1 then y :: insertByDate x l else x :: y :: l

/-- `df.sort_values("date")`: sort rows by the date column.  (pandas does
not promise stability for its default sort; all dates are distinct in
every use below, so any comparison sort agrees with this one.) -/
def pandasSortByDate : List DfRow → List DfRow
  | [] => []
  | x :: l => insertByDate x (pandasSortByDate l)

/-- `update_history(date_str, mob_vals, pc_vals)` over the stored CSV
content (list of unlabelled rows). -/
def update_history (date_str : String) (mob_vals pc_vals : List ℚ)
    (csv : List (String × List ℚ)) : List (String × List ℚ) :=
  let df := csv.enum
  let new_row := (date_str, mob_vals ++ pc_vals)
  let df := df.filter (fun r => r.2.1 ≠ date_str)
  let df := pandasLocSet df df.length new_row
  let df := pandasSortByDate df
  let df := df.drop (df.length - 28)
  df.map (fun r => r.2)

/-! ## cwv_report.py: `post_slack` (lines 176-196) and the Slack webhook
delivery at the end of monitor.py (lines 285-295)

Modelled by the externally visible outcome of each control-flow path. -/

/-- Outcome of `post_slack`. -/
inductive SlackDelivery where
  | uploadPosted
      -- `files_upload` succeeded: image + text delivered
  | apiErrorRaised
      -- `SlackApiError`: logged to stderr, then re-raised (fatal)
  | webhookPosted
      -- webhook-only path: text posted, response status never inspected
  | noCredentials
      -- neither credential: a line on stderr, nothing delivered
deriving DecidableEq, Repr

/-- `post_slack(text, file_path)`, abstracted over the credentials in the
environment and over whether `files_upload` raises `SlackApiError`. -/
def post_slack (token webhook : Option String) (uploadOk : Bool) :
    SlackDelivery :=
  match token with
  | some _ => if uploadOk then .uploadPosted else .apiErrorRaised
  | none =>
    match webhook with
    | some _ => .webhookPosted
    | none => .noCredentials

/-- Observable outcome of monitor.py's webhook notification block. -/
structure MonitorNotifyResult where
  exitCode : ℕ
  loggedError : Bool
deriving DecidableEq, Repr

/-- monitor.py lines 285-295: POST to the webhook if configured;
`none` status = `requests.post` raised (caught and logged); a non-200
status is logged.  The script then falls off the end, so the process
exit code is 0 on every path. -/
def monitorSlackNotify (webhook : Option String) (postStatus : Option ℕ) :
    MonitorNotifyResult :=
  match webhook with
  | some _ =>
    match postStatus with
    | none => ⟨0, true⟩
    | some status => ⟨0, status != 200⟩
  | none => ⟨0, false⟩

/-! ## cwv_report.py: `collect_all_sitemaps` (lines 199-233)

The web is a finite table from sitemap URL to fetched document; a URL
absent from the table stands for any fetch failure (non-200, timeout,
XML parse error) — in every such case `get_urls_from_sitemap` returns no
URLs for that sitemap.  The Python `seen` set is threaded explicitly; the
`trace` field records each sitemap URL actually fetched (i.e. each
`requests.get` call), in order. -/

/-- A fetched sitemap document. -/
inductive SitemapDoc where
  | index (children : List String)
  | urlset (pages : List String)
deriving DecidableEq, Repr

/-- Result of a traversal: collected page URLs, final visited set, and
the ordered list of sitemap URLs fetched. -/
structure SitemapResult where
  urls : List String
  seen : List String
  trace : List String
deriving DecidableEq, Repr

/-- Fetch a sitemap URL against the finite web table. -/
def fetchDoc (web : List (String × SitemapDoc)) (u : String) :
    Option SitemapDoc :=
  (web.find? (fun e => e.1 = u)).map (·.2)

/-- The distinct sitemap URLs the web can answer. -/
def webKeys (web : List (String × SitemapDoc)) : Finset String :=
  (web.map Prod.fst).toFinset

mutual

/-- `get_urls_from_sitemap(sitemap_url, seen)` with explicit fuel.  The
Python recursion carries no fuel; `get_urls_stable` below shows the
result no longer depends on the fuel once it exceeds the number of
unvisited fetchable sitemaps, which is the termination claim. -/
def get_urls_from_sitemap (web : List (String × SitemapDoc)) :
    ℕ → String → List String → SitemapResult
  | 0, _, seen => ⟨[], seen, []⟩
  | fuel + 1, sitemap_url, seen =>
    if sitemap_url ∈ seen then ⟨[], seen, []⟩
    else
      match fetchDoc web sitemap_url with
      | none => ⟨[], sitemap_url :: seen, [sitemap_url]⟩
      | some (.urlset pages) => ⟨pages, sitemap_url :: seen, [sitemap_url]⟩
      | some (.index children) =>
        let r := get_urls_from_children web fuel children (sitemap_url :: seen)
        ⟨r.urls, r.seen, sitemap_url :: r.trace⟩
termination_by fuel _ _ => (fuel, 0)

/-- The `for loc in root.iter(..)` loop over an index's children. -/
def get_urls_from_children (web : List (String × SitemapDoc)) :
    ℕ → List String → List String → SitemapResult
  | _, [], seen => ⟨[], seen, []⟩
  | fuel, c :: cs, seen =>
    let r1 := get_urls_from_sitemap web fuel c seen
    let r2 := get_urls_from_children web fuel cs r1.seen
    ⟨r1.urls ++ r2.urls, r2.seen, r1.trace ++ r2.trace⟩
termination_by fuel cs _ => (fuel, cs.length + 1)

end

/-- `collect_all_sitemaps(origin)`: try `<origin>/sitemap_index.xml`,
fall back to `<origin>/sitemap.xml`, cap the result at 4000 URLs.  The
fuel is one more than the whole web, which `get_urls_stable` shows is
enough. -/
def collect_all_sitemaps (web : List (String × SitemapDoc))
    (origin : String) : List String :=
  let index_url := origin ++ "/sitemap_index.xml"
  let fallback_url := origin ++ "/sitemap.xml"
  let fuel := (webKeys web).card + 1
  let start := if (fetchDoc web index_url).isSome then index_url
    else fallback_url
  (get_urls_from_sitemap web fuel start []).urls.take 4000

/-! ## monitor.py: `normalize_url` (lines 15-49)

`normalize_url` is built on `urllib.parse.urlparse` / `.geturl()`.  The
relevant CPython behaviour (Lib/urllib/parse.py) is modelled character
by character:
  * `urlsplit` first lstrips C0-control/space characters and removes
    every tab, CR and LF;
  * the scheme is everything before the first `:` provided it is a
    nonempty valid scheme name (letter first, then letters, digits,
    `+`, `-`, `.`); it is lowercased;
  * if the remainder starts with `//`, the netloc runs up to the next
    `/`, `?` or `#`;
  * the fragment is everything after the first `#` of the remainder,
    the query everything after the first `?` of what is left;
  * `urlparse` additionally splits `;params` off the last `/`-separated
    segment of the path;
  * `geturl`/`urlunparse` reassembles the parts (here always with empty
    params, query and fragment, as `normalize_url` replaces them). -/

/-- The bytes `urlsplit` removes outright: tab, CR, LF. -/
def tabCrLf : List Char := ['\t', '\r', '\n']

/-- WHATWG C0-control-or-space predicate used by `urlsplit`'s lstrip. -/
def isC0OrSpace (c : Char) : Bool := c ≤ ' '

/-- `urlsplit` preprocessing: lstrip C0/space, drop tab/CR/LF. -/
def sanitizeUrl (l : List Char) : List Char :=
  (l.dropWhile isC0OrSpace).filter (fun c => !tabCrLf.contains c)

/-- Split at the first occurrence of `c`: `some (before, after)`, the
separator excluded; `none` when `c` does not occur. -/
def splitOnFirst (c : Char) : List Char → Option (List Char × List Char)
  | [] => none
  | x :: xs =>
    if x = c then some ([], xs)
    else
      match splitOnFirst c xs with
      | none => none
      | some (a, b) => some (x :: a, b)

/-- Split at the last occurrence of `c`. -/
def splitOnLast (c : Char) (l : List Char) :
    Option (List Char × List Char) :=
  match splitOnFirst c l.reverse with
  | none => none
  | some (a, b) => some (b.reverse, a.reverse)

/-- Characters allowed in a scheme name (Python `scheme_chars`). -/
def isSchemeChar (c : Char) : Bool :=
  c.isAlpha || c.isDigit || c == '+' || c == '-' || c == '.'

/-- A valid scheme name: nonempty, letter first, scheme chars only. -/
def validSchemeName (l : List Char) : Bool :=
  match l with
  | [] => false
  | c :: _ => c.isAlpha && l.all isSchemeChar

/-- The result of `urlparse`: the six URL components. -/
structure UrlParts where
  scheme : List Char
  netloc : List Char
  path : List Char
  params : List Char
  query : List Char
  fragment : List Char
deriving DecidableEq, Repr

/-- The characters ending a netloc. -/
def netlocStopChars : List Char := ['/', '?', '#']

/-- `urlsplit` scheme step: split a lowercased valid scheme off the
first `:`; otherwise the scheme is empty and the URL is untouched. -/
def schemeSplit (url : List Char) : List Char × List Char :=
  match splitOnFirst ':' url with
  | some (pre, post) =>
    if validSchemeName pre then (pre.map Char.toLower, post)
    else ([], url)
  | none => ([], url)

/-- `urlsplit` netloc step: after a leading `//`, the netloc runs up to
the next `/`, `?` or `#`. -/
def netlocSplit (url : List Char) : List Char × List Char :=
  match url with
  | '/' :: '/' :: rest =>
    (rest.takeWhile (fun c => !netlocStopChars.contains c),
     rest.dropWhile (fun c => !netlocStopChars.contains c))
  | other => ([], other)

/-- `urlsplit` fragment step: split at the first `#`. -/
def fragmentSplit (url : List Char) : List Char × List Char :=
  match splitOnFirst '#' url with
  | some (pre, post) => (pre, post)
  | none => (url, [])

/-- `urlsplit` query step: split at the first `?`. -/
def querySplit (url : List Char) : List Char × List Char :=
  match splitOnFirst '?' url with
  | some (pre, post) => (pre, post)
  | none => (url, [])

/-- `urlsplit`'s unbalanced-bracket test on a parsed netloc: one of
`[`, `]` present without its partner. -/
def unbalancedBrackets (netloc : List Char) : Bool :=
  decide (('[' ∈ netloc ∧ ']' ∉ netloc) ∨ (']' ∈ netloc ∧ '[' ∉ netloc))

/-- CPython `urlsplit` (with `allow_fragments=True`).  `Except.error`
models the raised `ValueError`: a netloc with an unbalanced bracket
raises `ValueError("Invalid IPv6 URL")`.  (CPython applies this test
only inside the `url[:2] == '//'` branch; without that prefix the
netloc is empty, so the test is false either way and hoisting it is
equivalent.  CPython 3.11+ additionally validates a *balanced*
bracketed host as an IPv6/IPvFuture address and applies an NFKC check
to non-ASCII netlocs, raising for malformed ones; those supplementary
validations are not modelled here: no allow-listed host contains a
bracket or a non-ASCII character, and no theorem below constrains a
URL on which only they would fire.) -/
def urlsplitChars (url0 : List Char) : Except String UrlParts :=
  let url1 := sanitizeUrl url0
  let sp := schemeSplit url1
  let np := netlocSplit sp.2
  if unbalancedBrackets np.1 then .error "Invalid IPv6 URL"
  else
    let fp := fragmentSplit np.2
    let qp := querySplit fp.1
    .ok ⟨sp.1, np.1, qp.1, [], qp.2, fp.2⟩

/-- CPython `_splitparams`: split `;params` off the last path segment. -/
def splitParamsChars (p : List Char) : List Char × List Char :=
  if p.contains '/' then
    match splitOnLast '/' p with
    | some (before, after) =>
      match splitOnFirst ';' after with
      | some (a, b) => (before ++ '/' :: a, b)
      | none => (p, [])
    | none => (p, [])
  else
    match splitOnFirst ';' p with
    | some (a, b) => (a, b)
    | none => (p, [])

/-- The schemes for which `urlparse` performs the params split
(CPython 3.11 `uses_params`; the scheme is already lowercased by
`urlsplit` when the test runs). -/
def uses_params : List (List Char) :=
  ["".data, "ftp".data, "hdl".data, "prospero".data, "http".data,
   "imap".data, "https".data, "shttp".data, "rtsp".data, "rtsps".data,
   "rtspu".data, "sip".data, "sips".data, "mms".data, "sftp".data,
   "tel".data]

/-- `urlparse`'s gate around `_splitparams`: the split happens only for
a scheme in `uses_params` and only when the path contains a `;`. -/
def paramsSplitIf (scheme p : List Char) : List Char × List Char :=
  if scheme ∈ uses_params ∧ ';' ∈ p then splitParamsChars p
  else (p, [])

/-- CPython `urlparse`: `urlsplit` plus the gated params split. -/
def urlparseChars (u : List Char) : Except String UrlParts :=
  match urlsplitChars u with
  | .error e => .error e
  | .ok s =>
    let pp := paramsSplitIf s.scheme s.path
    .ok ⟨s.scheme, s.netloc, pp.1, pp.2, s.query, s.fragment⟩

/-- CPython `urlunparse` for parts with empty params/query/fragment, as
produced by the `_replace(...)` in `normalize_url`. -/
def urlunparseChars (scheme netloc path : List Char) : List Char :=
  let url := path
  let url :=
    if netloc ≠ [] ∨ (url ≠ [] ∧ url.take 2 = ['/', '/']) then
      let url1 := if url ≠ [] ∧ url.head? ≠ some '/' then '/' :: url else url
      '/' :: '/' :: (netloc ++ url1)
    else url
  if scheme ≠ [] then scheme ++ ':' :: url else url

/-- monitor.py line 33: the allow-listed hostnames. -/
def allowed_domains : List (List Char) :=
  ["good-apps.jp".data, "www.good-apps.jp".data]

/-- `normalize_url(url)` (monitor.py lines 15-49); `.ok none` is
Python's `None` (URL rejected), `.error` a `ValueError` propagating out
of either `urlparse` call (the function does not catch it). -/
def normalizeUrlChars (url : List Char) :
    Except String (Option (List Char)) :=
  match urlparseChars url with
  | .error e => .error e
  | .ok parsed =>
    let scheme :=
      if parsed.scheme = [] then "https".data
      else if parsed.scheme = "http".data then "https".data
      else parsed.scheme
    if parsed.netloc = [] then .ok none
    else if parsed.netloc ∉ allowed_domains then .ok none
    else
      let url_clean := urlunparseChars scheme parsed.netloc parsed.path
      let url_clean2 :=
        if url_clean.getLast? = some '/' ∧ parsed.path ≠ [] ∧
            parsed.path ≠ ['/'] then
          url_clean.dropLast
        else url_clean
      match urlparseChars url_clean2 with
      | .error e => .error e
      | .ok reparsed =>
        let url_clean3 :=
          if reparsed.path = [] then url_clean2 ++ ['/']
          else url_clean2
        .ok (some url_clean3)

/-- `normalize_url` on strings. -/
def normalize_url (url : String) : Except String (Option String) :=
  match normalizeUrlChars url.data with
  | .error e => .error e
  | .ok r => .ok (r.map List.asString)

/-- Equality of `Except` results is decidable (used to evaluate
`normalize_url` on concrete URLs). -/
def exceptDecEq {ε α : Type} [DecidableEq ε] [DecidableEq α] :
    DecidableEq (Except ε α) := fun a b =>
  match a, b with
  | .error e, .error f =>
    if h : e = f then isTrue (congrArg Except.error h)
    else isFalse fun hc => h (Except.error.inj hc)
  | .ok x, .ok y =>
    if h : x = y then isTrue (congrArg Except.ok h)
    else isFalse fun hc => h (Except.ok.inj hc)
  | .error _, .ok _ => isFalse fun hc => Except.noConfusion hc
  | .ok _, .error _ => isFalse fun hc => Except.noConfusion hc

instance {ε α : Type} [DecidableEq ε] [DecidableEq α] :
    DecidableEq (Except ε α) := exceptDecEq

/-- A helper used in claim statements: the suffix of a character list
after its last `/` (the whole list when there is no `/`). -/
def afterLastSlash (l : List Char) : List Char :=
  match splitOnLast '/' l with
  | some p => p.2
  | none => l

/-- Number of fetchable sitemap URLs not yet visited: the decreasing
measure of `get_urls_from_sitemap`. -/
def unvisitedCount (web : List (String × SitemapDoc))
    (seen : List String) : ℕ :=
  ((webKeys web).filter (fun k => k ∉ seen)).card

/-! # Theorems -/

/-! ## C1: worst-case aggregation -/

/-- C1 (counterexample): the claim says the aggregate good component
equals *exactly* the minimum of the per-metric good proportions, but
`aggregate` rounds its outputs to two decimals (`round(good, 2)`), so a
minimum of 0.123 (density 0.00123) comes back as 0.12. -/
theorem aggregate_min_exact_cex :
    (aggregate ⟨some ⟨[⟨123/100000⟩, ⟨9/10⟩, ⟨9877/100000⟩]⟩,
        some ⟨[⟨1⟩, ⟨0⟩, ⟨0⟩]⟩, some ⟨[⟨1⟩, ⟨0⟩, ⟨0⟩]⟩⟩).1 = 12/100 ∧
    min (min (parse_histogram ⟨[⟨123/100000⟩, ⟨9/10⟩, ⟨9877/100000⟩]⟩).1
        (parse_histogram ⟨[⟨1⟩, ⟨0⟩, ⟨0⟩]⟩).1)
      (parse_histogram ⟨[⟨1⟩, ⟨0⟩, ⟨0⟩]⟩).1 = 123/1000 ∧
    (12/100 : ℚ) ≠ 123/1000 := by
  refine ⟨?_, ?_, by norm_num⟩
  · norm_num [aggregate, parse_histogram, MetricsDict.fetched, listMin,
      listMax, pyRound2, roundHalfEven]
  · norm_num [parse_histogram]

/-- C1 (amended): on a metrics dict where every metric carries a 3-bin
histogram, `aggregate` returns the minimum of the good percentages, the
maximum of the poor percentages, and the remainder clamped to ≥ 0 —
each rounded to two decimals (Python `round(x, 2)`). -/
theorem aggregate_worst_case_rounded (g1 n1 p1 g2 n2 p2 g3 n3 p3 : ℚ) :
    aggregate ⟨some ⟨[⟨g1⟩, ⟨n1⟩, ⟨p1⟩]⟩, some ⟨[⟨g2⟩, ⟨n2⟩, ⟨p2⟩]⟩,
        some ⟨[⟨g3⟩, ⟨n3⟩, ⟨p3⟩]⟩⟩ =
      (pyRound2 (min (min (g1*100) (g2*100)) (g3*100)),
       pyRound2 (max 0 (100 - min (min (g1*100) (g2*100)) (g3*100)
           - max (max (p1*100) (p2*100)) (p3*100))),
       pyRound2 (max (max (p1*100) (p2*100)) (p3*100))) := by
  simp [aggregate, MetricsDict.fetched, parse_histogram, listMin, listMax]

/-! ## C3: independent-probability aggregation -/

/-- C3 (counterexample): the claim says the probabilistic aggregate good
component equals *exactly* the product of the per-metric good
proportions, but the product 0.85³ = 0.614125 (61.4125%) is rounded by
`round(good*100, 2)` to 61.41. -/
theorem aggregate_probabilistic_exact_cex :
    (aggregate_probabilistic ⟨some ⟨[⟨85/100⟩, ⟨15/100⟩, ⟨0⟩]⟩,
        some ⟨[⟨85/100⟩, ⟨15/100⟩, ⟨0⟩]⟩,
        some ⟨[⟨85/100⟩, ⟨15/100⟩, ⟨0⟩]⟩⟩).1 = 6141/100 ∧
    ((85/100 : ℚ) * (85/100) * (85/100)) * 100 = 614125/10000 ∧
    (6141/100 : ℚ) ≠ 614125/10000 := by
  refine ⟨?_, by norm_num, by norm_num⟩
  norm_num [aggregate_probabilistic, parse_histogram, MetricsDict.fetched,
    pyRound2, roundHalfEven]

/-- C3 (amended): on a metrics dict where every metric carries a 3-bin
histogram, `aggregate_probabilistic` returns good = Π goods,
poor = 1 − Π (1 − poors), ni = the remainder clamped to ≥ 0 — each
scaled to a percentage and rounded to two decimals. -/
theorem aggregate_probabilistic_rounded (g1 n1 p1 g2 n2 p2 g3 n3 p3 : ℚ) :
    aggregate_probabilistic ⟨some ⟨[⟨g1⟩, ⟨n1⟩, ⟨p1⟩]⟩,
        some ⟨[⟨g2⟩, ⟨n2⟩, ⟨p2⟩]⟩, some ⟨[⟨g3⟩, ⟨n3⟩, ⟨p3⟩]⟩⟩ =
      (pyRound2 ((g1 * g2 * g3) * 100),
       pyRound2 (max 0 (1 - g1 * g2 * g3
           - (1 - (1 - p1) * (1 - p2) * (1 - p3))) * 100),
       pyRound2 ((1 - (1 - p1) * (1 - p2) * (1 - p3)) * 100)) := by
  simp only [aggregate_probabilistic, MetricsDict.fetched, parse_histogram,
    Option.getD_some, List.map_cons, List.map_nil, List.foldl, List.get?]
  refine congrArg₂ Prod.mk ?_ (congrArg₂ Prod.mk ?_ ?_)
  · exact congrArg pyRound2 (by ring)
  · refine congrArg pyRound2 (congrArg₂ HMul.hMul (congrArg (max 0) ?_) rfl)
    ring
  · exact congrArg pyRound2 (by ring)

/-! ## C2: missing data handling -/

/-- C2 (counterexample): the claim says a metric with missing data is
excluded from aggregation and that with zero metrics the aggregate is
"no data".  In `aggregate`, an absent metric is parsed as (0, 0, 0) and
*included*: with a missing LCP and two perfect metrics the aggregate
good is 0 (not 100), and with all three metrics absent the result is
the definite triple (0, 100, 0) — everything binned as
needs-improvement — rather than any "no data" marker. -/
theorem aggregate_missing_default_cex :
    aggregate ⟨none, some ⟨[⟨1⟩, ⟨0⟩, ⟨0⟩]⟩, some ⟨[⟨1⟩, ⟨0⟩, ⟨0⟩]⟩⟩
      = (0, 100, 0) ∧
    aggregate ⟨none, none, none⟩ = (0, 100, 0) := by
  constructor <;>
    norm_num [aggregate, parse_histogram, MetricsDict.fetched, listMin,
      listMax, pyRound2, roundHalfEven]

/-- C2 (amended): the "no data" discipline lives in the point-status
path: `psi_field_status` and `crux_page_status` return `"nodata"`
whenever the response, the field-data object, or any one of the three
required metrics (LCP, CLS or INP) is missing, and the tally in `main`
drops every `"nodata"`, wherever it sits in the list, from all
downstream counts.  The histogram path does not implement it:
`parse_histogram` maps missing data to zero densities and `aggregate`
includes absent metrics, yielding (0, 100, 0) when no metric has
data. -/
theorem nodata_exclusion_split :
    psi_field_status none = "nodata" ∧
    psi_field_status (some ⟨none⟩) = "nodata" ∧
    psi_field_status (some ⟨some ⟨none⟩⟩) = "nodata" ∧
    (∀ c i : Option ℚ, psi_field_status (some ⟨some ⟨some ⟨none, c, i⟩⟩⟩)
      = "nodata") ∧
    (∀ l i : Option ℚ, psi_field_status (some ⟨some ⟨some ⟨l, none, i⟩⟩⟩)
      = "nodata") ∧
    (∀ l c : Option ℚ, psi_field_status (some ⟨some ⟨some ⟨l, c, none⟩⟩⟩)
      = "nodata") ∧
    crux_page_status none = "nodata" ∧
    (∀ i c : Option ℚ, crux_page_status (some ⟨none, i, c⟩) = "nodata") ∧
    (∀ l c : Option ℚ, crux_page_status (some ⟨l, none, c⟩) = "nodata") ∧
    (∀ l i : Option ℚ, crux_page_status (some ⟨l, i, none⟩) = "nodata") ∧
    (∀ l₁ l₂ : List String,
      tallyStatuses (l₁ ++ "nodata" :: l₂) = tallyStatuses (l₁ ++ l₂)) ∧
    parse_histogram ⟨[]⟩ = (0, 0, 0) ∧
    aggregate ⟨none, none, none⟩ = (0, 100, 0) := by
  refine ⟨rfl, rfl, rfl, fun c i => rfl, fun l i => ?_, fun l c => ?_,
    rfl, fun i c => rfl, fun l c => ?_, fun l i => ?_, ?_, rfl, ?_⟩
  · cases l <;> rfl
  · cases l <;> cases c <;> rfl
  · cases l <;> rfl
  · cases l <;> cases i <;> rfl
  · intro l₁ l₂
    simp [tallyStatuses, List.filter_append]
  · norm_num [aggregate, parse_histogram, MetricsDict.fetched, listMin,
      listMax, pyRound2, roundHalfEven]

/-! ## C4: history update -/

/-- C4 (code bug): after `df = df[df["date"] != date_str]` the surviving
rows keep their original pandas labels, so `df.loc[len(df)] = new_row`
can hit an *existing* label.  Re-inserting the date of the first of two
stored rows leaves `len(df) = 1` while label 1 still names the second
row, so the 2024-01-02 row is overwritten and silently lost instead of
being kept unchanged. -/
theorem update_history_label_clobber :
    update_history "2024-01-01" [7, 2, 1] [6, 3, 1]
        [("2024-01-01", [5, 3, 2, 5, 3, 2]),
         ("2024-01-02", [6, 2, 2, 6, 2, 2])]
      = [("2024-01-01", [7, 2, 1, 6, 3, 1])] ∧
    "2024-01-02" ∉ (update_history "2024-01-01" [7, 2, 1] [6, 3, 1]
        [("2024-01-01", [5, 3, 2, 5, 3, 2]),
         ("2024-01-02", [6, 2, 2, 6, 2, 2])]).map Prod.fst := by
  constructor
  · rfl
  · decide

/-! ## C8: delivery failure handling -/

/-- C8 (counterexample): with both a bot token and a webhook configured,
a `files_upload` failure is re-raised — `post_slack` never falls back to
the text-only webhook path; and monitor.py logs a non-200 webhook
response but still exits 0, so the failure is not surfaced as a
non-zero exit. -/
theorem slack_fallback_cex :
    post_slack (some "tok") (some "hook") false = .apiErrorRaised ∧
    SlackDelivery.apiErrorRaised ≠ SlackDelivery.webhookPosted ∧
    monitorSlackNotify (some "hook") (some 500) = ⟨0, true⟩ := by
  exact ⟨rfl, by decide, rfl⟩

/-- C8 (amended): in `post_slack` a token-path upload failure is logged
and re-raised as a fatal error regardless of webhook availability (no
fallback); with only a webhook the text is posted without inspecting
the response; with no credentials a stderr line is the only effect.  In
monitor.py, webhook delivery failures (exception or non-200) are logged
but the process still exits 0 on every path. -/
theorem slack_failure_handling :
    (∀ t : String, ∀ w : Option String,
      post_slack (some t) w false = .apiErrorRaised) ∧
    (∀ t : String, ∀ w : Option String,
      post_slack (some t) w true = .uploadPosted) ∧
    (∀ w : String, ∀ b : Bool, post_slack none (some w) b = .webhookPosted) ∧
    (∀ b : Bool, post_slack none none b = .noCredentials) ∧
    (∀ w : String, ∀ s : ℕ,
      (monitorSlackNotify (some w) (some s)).exitCode = 0 ∧
      ((monitorSlackNotify (some w) (some s)).loggedError = true ↔ s ≠ 200)) ∧
    (∀ w : String, monitorSlackNotify (some w) none = ⟨0, true⟩) ∧
    (∀ p : Option ℕ, monitorSlackNotify none p = ⟨0, false⟩) := by
  refine ⟨fun t w => rfl, fun t w => rfl, fun w b => rfl, fun b => rfl,
    fun w s => ⟨rfl, ?_⟩, fun w => rfl, fun p => rfl⟩
  simp [monitorSlackNotify]

/-! ## C10: totality of the point classifiers -/

/-- C10 (confirmed): `psi_field_status` and `crux_page_status` always
return one of exactly "good", "ni", "poor", "nodata"; and every failing
or missing input shape lands specifically on "nodata": a caught
exception (`none` response — network error, non-2xx status, malformed
JSON), a missing `loadingExperience`, a missing `metrics` table, and a
missing LCP, CLS or INP datum, in both classifiers. -/
theorem status_total_four_values (r : Option PsiResponse)
    (q : Option CruxMetrics) :
    psi_field_status r ∈ ["good", "ni", "poor", "nodata"] ∧
    crux_page_status q ∈ ["good", "ni", "poor", "nodata"] ∧
    psi_field_status none = "nodata" ∧
    psi_field_status (some ⟨none⟩) = "nodata" ∧
    psi_field_status (some ⟨some ⟨none⟩⟩) = "nodata" ∧
    (∀ c i : Option ℚ,
      psi_field_status (some ⟨some ⟨some ⟨none, c, i⟩⟩⟩) = "nodata") ∧
    (∀ l i : Option ℚ,
      psi_field_status (some ⟨some ⟨some ⟨l, none, i⟩⟩⟩) = "nodata") ∧
    (∀ l c : Option ℚ,
      psi_field_status (some ⟨some ⟨some ⟨l, c, none⟩⟩⟩) = "nodata") ∧
    crux_page_status none = "nodata" ∧
    (∀ i c : Option ℚ, crux_page_status (some ⟨none, i, c⟩) = "nodata") ∧
    (∀ l c : Option ℚ, crux_page_status (some ⟨l, none, c⟩) = "nodata") ∧
    (∀ l i : Option ℚ, crux_page_status (some ⟨l, i, none⟩) = "nodata") := by
  refine ⟨?_, ?_, rfl, rfl, rfl, fun c i => rfl,
    fun l i => by cases l <;> rfl, fun l c => by cases l <;> cases c <;> rfl,
    rfl, fun i c => rfl, fun l c => by cases l <;> rfl,
    fun l i => by cases l <;> cases i <;> rfl⟩
  · match r with
    | none => simp [psi_field_status]
    | some ⟨none⟩ => simp [psi_field_status]
    | some ⟨some ⟨none⟩⟩ => simp [psi_field_status]
    | some ⟨some ⟨some ⟨lcp, cls, inp⟩⟩⟩ =>
      match lcp, cls, inp with
      | none, _, _ => simp [psi_field_status]
      | some _, none, _ => simp [psi_field_status]
      | some _, some _, none => simp [psi_field_status]
      | some l, some c, some i =>
        simp only [psi_field_status, Option.map]
        split
        · simp
        · split <;> simp
  · match q with
    | none => simp [crux_page_status]
    | some ⟨lcp, inp, cls⟩ =>
      match lcp, inp, cls with
      | none, _, _ => simp [crux_page_status]
      | some _, none, _ => simp [crux_page_status]
      | some _, some _, none => simp [crux_page_status]
      | some l, some i, some c =>
        simp only [crux_page_status]
        split
        · simp
        · split <;> simp

/-! ## C5: threshold boundaries -/

/-- `psi_field_status` on full field data, rewritten over raw API units
(LCP/INP percentiles in ms, CLS score scaled by 100). -/
theorem psiV_eq (l c i : ℚ) :
    psi_field_status (some ⟨some ⟨some ⟨some l, some c, some i⟩⟩⟩) =
      if 4000 < l ∨ 500 < i ∨ 25 < c then "poor"
      else if 2500 < l ∨ 200 < i ∨ 10 < c then "ni"
      else "good" := by
  have e1 : ((4:ℚ) < l / 1000) ↔ 4000 < l := by
    rw [lt_div_iff₀ (by norm_num : (0:ℚ) < 1000)]; norm_num
  have e2 : ((1:ℚ)/2 < i / 1000) ↔ 500 < i := by
    rw [lt_div_iff₀ (by norm_num : (0:ℚ) < 1000)]; norm_num
  have e3 : ((1:ℚ)/4 < c / 100) ↔ 25 < c := by
    rw [lt_div_iff₀ (by norm_num : (0:ℚ) < 100)]; norm_num
  have e4 : ((5:ℚ)/2 < l / 1000) ↔ 2500 < l := by
    rw [lt_div_iff₀ (by norm_num : (0:ℚ) < 1000)]; norm_num
  have e5 : ((1:ℚ)/5 < i / 1000) ↔ 200 < i := by
    rw [lt_div_iff₀ (by norm_num : (0:ℚ) < 1000)]; norm_num
  have e6 : ((1:ℚ)/10 < c / 100) ↔ 10 < c := by
    rw [lt_div_iff₀ (by norm_num : (0:ℚ) < 100)]; norm_num
  simp only [psi_field_status, Option.map, gt_iff_lt, e1, e2, e3, e4, e5, e6]

/-- `crux_page_status` on full p75 data, rewritten over raw API units. -/
theorem cruxV_eq (l i c : ℚ) :
    crux_page_status (some ⟨some l, some i, some c⟩) =
      if 4000 < l ∨ 500 < i ∨ 25 < c then "poor"
      else if 2500 < l ∨ 200 < i ∨ 10 < c then "ni"
      else "good" := by
  have e1 : ((4:ℚ) < l / 1000) ↔ 4000 < l := by
    rw [lt_div_iff₀ (by norm_num : (0:ℚ) < 1000)]; norm_num
  have e2 : ((1:ℚ)/2 < i / 1000) ↔ 500 < i := by
    rw [lt_div_iff₀ (by norm_num : (0:ℚ) < 1000)]; norm_num
  have e3 : ((1:ℚ)/4 < c / 100) ↔ 25 < c := by
    rw [lt_div_iff₀ (by norm_num : (0:ℚ) < 100)]; norm_num
  have e4 : ((5:ℚ)/2 < l / 1000) ↔ 2500 < l := by
    rw [lt_div_iff₀ (by norm_num : (0:ℚ) < 1000)]; norm_num
  have e5 : ((1:ℚ)/5 < i / 1000) ↔ 200 < i := by
    rw [lt_div_iff₀ (by norm_num : (0:ℚ) < 1000)]; norm_num
  have e6 : ((1:ℚ)/10 < c / 100) ↔ 10 < c := by
    rw [lt_div_iff₀ (by norm_num : (0:ℚ) < 100)]; norm_num
  simp only [crux_page_status, gt_iff_lt, e1, e2, e3, e4, e5, e6]

/-- C5 (counterexample): the claim closes each range on its *lower* end
and opens it on its upper end, which would put LCP = 2500 ms in the
needs-improvement range; the code classifies a 2500 ms sample (other
metrics perfect) as "good". -/
theorem boundary_range_gloss_cex :
    psi_field_status (some ⟨some ⟨some ⟨some 2500, some 0, some 0⟩⟩⟩)
      = "good" ∧ "good" ≠ "ni" := by
  refine ⟨?_, by decide⟩
  norm_num [psiV_eq]

/-- C5 (amended): a sample exactly at a good/ni boundary classifies as
the better category and a sample exactly at the ni/poor boundary as
"ni", for every metric and in both classifiers: all threshold
comparisons are strict (`>`), so each category range is *open at its
lower threshold and closed at its upper threshold* (good closed at 0,
poor unbounded above). -/
theorem boundary_better_category :
    (∀ l c i : ℚ,
      psi_field_status (some ⟨some ⟨some ⟨some l, some c, some i⟩⟩⟩) =
        if 4000 < l ∨ 500 < i ∨ 25 < c then "poor"
        else if 2500 < l ∨ 200 < i ∨ 10 < c then "ni"
        else "good") ∧
    (∀ l i c : ℚ,
      crux_page_status (some ⟨some l, some i, some c⟩) =
        if 4000 < l ∨ 500 < i ∨ 25 < c then "poor"
        else if 2500 < l ∨ 200 < i ∨ 10 < c then "ni"
        else "good") ∧
    psi_field_status (some ⟨some ⟨some ⟨some 2500, some 0, some 0⟩⟩⟩) = "good" ∧
    psi_field_status (some ⟨some ⟨some ⟨some 4000, some 0, some 0⟩⟩⟩) = "ni" ∧
    psi_field_status (some ⟨some ⟨some ⟨some 0, some 0, some 200⟩⟩⟩) = "good" ∧
    psi_field_status (some ⟨some ⟨some ⟨some 0, some 0, some 500⟩⟩⟩) = "ni" ∧
    psi_field_status (some ⟨some ⟨some ⟨some 0, some 10, some 0⟩⟩⟩) = "good" ∧
    psi_field_status (some ⟨some ⟨some ⟨some 0, some 25, some 0⟩⟩⟩) = "ni" ∧
    crux_page_status (some ⟨some 2500, some 0, some 0⟩) = "good" ∧
    crux_page_status (some ⟨some 4000, some 0, some 0⟩) = "ni" ∧
    crux_page_status (some ⟨some 0, some 200, some 0⟩) = "good" ∧
    crux_page_status (some ⟨some 0, some 500, some 0⟩) = "ni" ∧
    crux_page_status (some ⟨some 0, some 0, some 10⟩) = "good" ∧
    crux_page_status (some ⟨some 0, some 0, some 25⟩) = "ni" := by
  refine ⟨psiV_eq, cruxV_eq, ?_, ?_, ?_, ?_, ?_, ?_, ?_, ?_, ?_, ?_, ?_, ?_⟩
    <;> norm_num [psiV_eq, cruxV_eq]

/-! ## C7: sitemap traversal -/

theorem go_eq_zero (web : List (String × SitemapDoc)) (url : String)
    (seen : List String) :
    get_urls_from_sitemap web 0 url seen = ⟨[], seen, []⟩ := by
  simp [get_urls_from_sitemap]

theorem go_eq_mem (web : List (String × SitemapDoc)) (n : ℕ) (url : String)
    (seen : List String) (hmem : url ∈ seen) :
    get_urls_from_sitemap web (n + 1) url seen = ⟨[], seen, []⟩ := by
  simp [get_urls_from_sitemap, hmem]

theorem go_eq_fetch_none (web : List (String × SitemapDoc)) (n : ℕ)
    (url : String) (seen : List String) (hmem : url ∉ seen)
    (hf : fetchDoc web url = none) :
    get_urls_from_sitemap web (n + 1) url seen
      = ⟨[], url :: seen, [url]⟩ := by
  simp [get_urls_from_sitemap, hmem, hf]

theorem go_eq_urlset (web : List (String × SitemapDoc)) (n : ℕ)
    (url : String) (seen : List String) (pages : List String)
    (hmem : url ∉ seen) (hf : fetchDoc web url = some (.urlset pages)) :
    get_urls_from_sitemap web (n + 1) url seen
      = ⟨pages, url :: seen, [url]⟩ := by
  simp [get_urls_from_sitemap, hmem, hf]

theorem go_eq_index (web : List (String × SitemapDoc)) (n : ℕ)
    (url : String) (seen : List String) (cs : List String)
    (hmem : url ∉ seen) (hf : fetchDoc web url = some (.index cs)) :
    get_urls_from_sitemap web (n + 1) url seen =
      ⟨(get_urls_from_children web n cs (url :: seen)).urls,
       (get_urls_from_children web n cs (url :: seen)).seen,
       url :: (get_urls_from_children web n cs (url :: seen)).trace⟩ := by
  simp [get_urls_from_sitemap, hmem, hf]

theorem children_eq_nil (web : List (String × SitemapDoc)) (n : ℕ)
    (seen : List String) :
    get_urls_from_children web n [] seen = ⟨[], seen, []⟩ := by
  simp [get_urls_from_children]

theorem children_eq_cons (web : List (String × SitemapDoc)) (n : ℕ)
    (c : String) (cs : List String) (seen : List String) :
    get_urls_from_children web n (c :: cs) seen =
      ⟨(get_urls_from_sitemap web n c seen).urls ++
        (get_urls_from_children web n cs
          (get_urls_from_sitemap web n c seen).seen).urls,
       (get_urls_from_children web n cs
          (get_urls_from_sitemap web n c seen).seen).seen,
       (get_urls_from_sitemap web n c seen).trace ++
        (get_urls_from_children web n cs
          (get_urls_from_sitemap web n c seen).seen).trace⟩ := by
  simp [get_urls_from_children]

/-- A successful fetch means the URL is one of the web's keys. -/
theorem fetchDoc_mem_webKeys (web : List (String × SitemapDoc))
    (u : String) (d : SitemapDoc) (h : fetchDoc web u = some d) :
    u ∈ webKeys web := by
  unfold fetchDoc at h
  cases hf : web.find? (fun e => e.1 = u) with
  | none => rw [hf] at h; simp at h
  | some e =>
    have he : e ∈ web := List.mem_of_find?_eq_some hf
    have hp := List.find?_some hf
    have : e.1 = u := by simpa using hp
    subst this
    simp only [webKeys, List.mem_toFinset]
    exact List.mem_map_of_mem Prod.fst he

/-- Growing the visited set cannot increase the unvisited count. -/
theorem unvisited_mono (web : List (String × SitemapDoc))
    (seen seen' : List String) (h : ∀ x ∈ seen, x ∈ seen') :
    unvisitedCount web seen' ≤ unvisitedCount web seen := by
  apply Finset.card_le_card
  intro x hx
  simp only [Finset.mem_filter] at hx ⊢
  exact ⟨hx.1, fun hmem => hx.2 (h x hmem)⟩

/-- Visiting a fetchable unvisited URL strictly shrinks the measure. -/
theorem unvisited_insert_lt (web : List (String × SitemapDoc))
    (u : String) (seen : List String) (hu : u ∈ webKeys web)
    (hns : u ∉ seen) :
    unvisitedCount web (u :: seen) < unvisitedCount web seen := by
  apply Finset.card_lt_card
  rw [Finset.ssubset_iff_of_subset]
  · exact ⟨u, by simp [Finset.mem_filter, hu, hns], by simp⟩
  · intro x hx
    simp only [Finset.mem_filter, List.mem_cons] at hx ⊢
    exact ⟨hx.1, fun hmem => hx.2 (Or.inr hmem)⟩

/-- The final visited set is the fetched trace (in reverse) on top of
the initial visited set — the set only grows, by exactly the fetched
URLs. -/
theorem sitemap_seen_eq (web : List (String × SitemapDoc)) :
    ∀ fuel : ℕ,
    (∀ url seen, (get_urls_from_sitemap web fuel url seen).seen
        = (get_urls_from_sitemap web fuel url seen).trace.reverse ++ seen) ∧
    (∀ cs seen, (get_urls_from_children web fuel cs seen).seen
        = (get_urls_from_children web fuel cs seen).trace.reverse ++ seen)
    := by
  intro fuel
  induction fuel with
  | zero =>
    have hgo : ∀ url seen, (get_urls_from_sitemap web 0 url seen).seen
        = (get_urls_from_sitemap web 0 url seen).trace.reverse ++ seen := by
      intro url seen; rw [go_eq_zero]; simp
    refine ⟨hgo, ?_⟩
    intro cs
    induction cs with
    | nil => intro seen; rw [children_eq_nil]; simp
    | cons c cs ihc =>
      intro seen
      rw [children_eq_cons]
      simp only [List.reverse_append, List.append_assoc]
      rw [ihc (get_urls_from_sitemap web 0 c seen).seen, hgo c seen]
  | succ n ih =>
    have hgo : ∀ url seen, (get_urls_from_sitemap web (n+1) url seen).seen
        = (get_urls_from_sitemap web (n+1) url seen).trace.reverse ++ seen := by
      intro url seen
      by_cases hmem : url ∈ seen
      · rw [go_eq_mem web n url seen hmem]; simp
      · cases hf : fetchDoc web url with
        | none => rw [go_eq_fetch_none web n url seen hmem hf]; rfl
        | some d =>
          cases d with
          | urlset ps => rw [go_eq_urlset web n url seen ps hmem hf]; rfl
          | index cs =>
            rw [go_eq_index web n url seen cs hmem hf]
            simp only
            rw [ih.2 cs (url :: seen)]
            simp
    refine ⟨hgo, ?_⟩
    intro cs
    induction cs with
    | nil => intro seen; rw [children_eq_nil]; simp
    | cons c cs ihc =>
      intro seen
      rw [children_eq_cons]
      simp only [List.reverse_append, List.append_assoc]
      rw [ihc (get_urls_from_sitemap web (n+1) c seen).seen, hgo c seen]

/-- Derived membership form of `sitemap_seen_eq`. -/
theorem sitemap_seen_mem (web : List (String × SitemapDoc)) (fuel : ℕ)
    (url : String) (seen : List String) (x : String) :
    x ∈ (get_urls_from_sitemap web fuel url seen).seen
      ↔ x ∈ (get_urls_from_sitemap web fuel url seen).trace ∨ x ∈ seen := by
  rw [(sitemap_seen_eq web fuel).1 url seen]
  simp

/-- No sitemap URL is ever fetched twice, and none that was already
visited is fetched at all. -/
theorem sitemap_trace_ok (web : List (String × SitemapDoc)) :
    ∀ fuel : ℕ,
    (∀ url seen, (get_urls_from_sitemap web fuel url seen).trace.Nodup ∧
      ∀ u ∈ (get_urls_from_sitemap web fuel url seen).trace, u ∉ seen) ∧
    (∀ cs seen, (get_urls_from_children web fuel cs seen).trace.Nodup ∧
      ∀ u ∈ (get_urls_from_children web fuel cs seen).trace, u ∉ seen)
    := by
  intro fuel
  induction fuel with
  | zero =>
    have hgo : ∀ url seen,
        (get_urls_from_sitemap web 0 url seen).trace.Nodup ∧
        ∀ u ∈ (get_urls_from_sitemap web 0 url seen).trace, u ∉ seen := by
      intro url seen; rw [go_eq_zero]; simp
    refine ⟨hgo, ?_⟩
    intro cs
    induction cs with
    | nil => intro seen; rw [children_eq_nil]; simp
    | cons c cs ihc =>
      intro seen
      rw [children_eq_cons]
      simp only [List.nodup_append, List.mem_append]
      obtain ⟨h1n, h1d⟩ := hgo c seen
      obtain ⟨h2n, h2d⟩ := ihc (get_urls_from_sitemap web 0 c seen).seen
      refine ⟨⟨h1n, h2n, ?_⟩, ?_⟩
      · intro a ha hb
        have := h2d a hb
        rw [sitemap_seen_mem] at this
        exact this (Or.inl ha)
      · rintro u (hu | hu)
        · exact h1d u hu
        · intro hmem
          have := h2d u hu
          rw [sitemap_seen_mem] at this
          exact this (Or.inr hmem)
  | succ n ih =>
    have hgo : ∀ url seen,
        (get_urls_from_sitemap web (n+1) url seen).trace.Nodup ∧
        ∀ u ∈ (get_urls_from_sitemap web (n+1) url seen).trace, u ∉ seen := by
      intro url seen
      by_cases hmem : url ∈ seen
      · rw [go_eq_mem web n url seen hmem]; simp
      · cases hf : fetchDoc web url with
        | none =>
          rw [go_eq_fetch_none web n url seen hmem hf]
          simp [hmem]
        | some d =>
          cases d with
          | urlset ps =>
            rw [go_eq_urlset web n url seen ps hmem hf]
            simp [hmem]
          | index cs =>
            rw [go_eq_index web n url seen cs hmem hf]
            obtain ⟨hn, hd⟩ := ih.2 cs (url :: seen)
            simp only [List.nodup_cons]
            refine ⟨⟨?_, hn⟩, ?_⟩
            · intro hmem2
              exact hd url hmem2 (List.mem_cons_self url seen)
            · intro u hu
              simp only [List.mem_cons] at hu
              rcases hu with rfl | hu
              · exact hmem
              · intro hseen
                exact hd u hu (List.mem_cons_of_mem url hseen)
    refine ⟨hgo, ?_⟩
    intro cs
    induction cs with
    | nil => intro seen; rw [children_eq_nil]; simp
    | cons c cs ihc =>
      intro seen
      rw [children_eq_cons]
      simp only [List.nodup_append, List.mem_append]
      obtain ⟨h1n, h1d⟩ := hgo c seen
      obtain ⟨h2n, h2d⟩ := ihc (get_urls_from_sitemap web (n+1) c seen).seen
      refine ⟨⟨h1n, h2n, ?_⟩, ?_⟩
      · intro a ha hb
        have := h2d a hb
        rw [sitemap_seen_mem] at this
        exact this (Or.inl ha)
      · rintro u (hu | hu)
        · exact h1d u hu
        · intro hmem
          have := h2d u hu
          rw [sitemap_seen_mem] at this
          exact this (Or.inr hmem)

/-- One extra unit of fuel changes nothing once the fuel exceeds the
number of unvisited fetchable sitemaps. -/
theorem sitemap_stable_step (web : List (String × SitemapDoc)) :
    ∀ n : ℕ,
    (∀ url seen, unvisitedCount web seen + 1 ≤ n →
      get_urls_from_sitemap web n url seen
        = get_urls_from_sitemap web (n + 1) url seen) ∧
    (∀ cs seen, unvisitedCount web seen + 1 ≤ n →
      get_urls_from_children web n cs seen
        = get_urls_from_children web (n + 1) cs seen) := by
  intro n
  induction n with
  | zero =>
    constructor
    · intro url seen hb; omega
    · intro cs seen hb; omega
  | succ n ih =>
    have hgo : ∀ url seen, unvisitedCount web seen + 1 ≤ n + 1 →
        get_urls_from_sitemap web (n + 1) url seen
          = get_urls_from_sitemap web (n + 2) url seen := by
      intro url seen hb
      by_cases hmem : url ∈ seen
      · rw [go_eq_mem web n url seen hmem, go_eq_mem web (n+1) url seen hmem]
      · cases hf : fetchDoc web url with
        | none =>
          rw [go_eq_fetch_none web n url seen hmem hf,
            go_eq_fetch_none web (n+1) url seen hmem hf]
        | some d =>
          cases d with
          | urlset ps =>
            rw [go_eq_urlset web n url seen ps hmem hf,
              go_eq_urlset web (n+1) url seen ps hmem hf]
          | index cs =>
            rw [go_eq_index web n url seen cs hmem hf,
              go_eq_index web (n+1) url seen cs hmem hf]
            have hkey : url ∈ webKeys web :=
              fetchDoc_mem_webKeys web url (.index cs) hf
            have hlt : unvisitedCount web (url :: seen)
                < unvisitedCount web seen :=
              unvisited_insert_lt web url seen hkey hmem
            have hb2 : unvisitedCount web (url :: seen) + 1 ≤ n := by omega
            rw [ih.2 cs (url :: seen) hb2]
    refine ⟨hgo, ?_⟩
    intro cs
    induction cs with
    | nil =>
      intro seen hb
      rw [children_eq_nil, children_eq_nil]
    | cons c cs ihc =>
      intro seen hb
      rw [children_eq_cons, children_eq_cons, ← hgo c seen hb]
      have hsub : ∀ x ∈ seen, x ∈ (get_urls_from_sitemap web (n+1) c seen).seen := by
        intro x hx
        rw [sitemap_seen_mem]
        exact Or.inr hx
      have hb2 : unvisitedCount web (get_urls_from_sitemap web (n+1) c seen).seen + 1
          ≤ n + 1 := by
        have := unvisited_mono web seen
          (get_urls_from_sitemap web (n+1) c seen).seen hsub
        omega
      rw [ihc (get_urls_from_sitemap web (n+1) c seen).seen hb2]

/-- Adding any amount of fuel beyond the bound changes nothing. -/
theorem sitemap_stable_ge (web : List (String × SitemapDoc)) (k : ℕ) :
    ∀ n url seen, unvisitedCount web seen + 1 ≤ n →
      get_urls_from_sitemap web n url seen
        = get_urls_from_sitemap web (n + k) url seen := by
  induction k with
  | zero => intro n url seen hb; rfl
  | succ k ihk =>
    intro n url seen hb
    rw [ihk n url seen hb, show n + (k + 1) = (n + k) + 1 by omega]
    exact (sitemap_stable_step web (n + k)).1 url seen (by omega)

/-- C7 (confirmed): the recursive sitemap expansion terminates on every
finite web, cycles included — the result is already fixed at fuel
`unvisitedCount + 1` and never changes with more fuel — and it never
fetches a sitemap URL twice, nor one already visited: the fetch trace is
duplicate-free and disjoint from the initial visited set (the visited
set grows by exactly the fetched URLs, `sitemap_seen_eq`). -/
theorem sitemap_terminates_no_refetch (web : List (String × SitemapDoc))
    (url : String) (seen : List String) (n : ℕ)
    (h : unvisitedCount web seen + 1 ≤ n) :
    get_urls_from_sitemap web n url seen
      = get_urls_from_sitemap web (unvisitedCount web seen + 1) url seen ∧
    (get_urls_from_sitemap web n url seen).trace.Nodup ∧
    ∀ u ∈ (get_urls_from_sitemap web n url seen).trace, u ∉ seen := by
  refine ⟨?_, ((sitemap_trace_ok web n).1 url seen).1,
    ((sitemap_trace_ok web n).1 url seen).2⟩
  have hk := sitemap_stable_ge web (n - (unvisitedCount web seen + 1))
    (unvisitedCount web seen + 1) url seen (by omega)
  rw [show unvisitedCount web seen + 1 + (n - (unvisitedCount web seen + 1)) = n
    by omega] at hk
  exact hk.symm

/-- C7 (witness): a cyclic two-index web; fuel 9 exceeds the bound 4. -/
theorem sitemap_terminates_no_refetch_witness :
    get_urls_from_sitemap
        [("a", SitemapDoc.index ["b", "c"]), ("b", SitemapDoc.index ["a", "c"]),
         ("c", SitemapDoc.urlset ["p1", "p2"])] 9 "a" []
      = get_urls_from_sitemap
        [("a", SitemapDoc.index ["b", "c"]), ("b", SitemapDoc.index ["a", "c"]),
         ("c", SitemapDoc.urlset ["p1", "p2"])]
        (unvisitedCount
          [("a", SitemapDoc.index ["b", "c"]), ("b", SitemapDoc.index ["a", "c"]),
           ("c", SitemapDoc.urlset ["p1", "p2"])] [] + 1) "a" [] ∧
    (get_urls_from_sitemap
        [("a", SitemapDoc.index ["b", "c"]), ("b", SitemapDoc.index ["a", "c"]),
         ("c", SitemapDoc.urlset ["p1", "p2"])] 9 "a" []).trace.Nodup ∧
    ∀ u ∈ (get_urls_from_sitemap
        [("a", SitemapDoc.index ["b", "c"]), ("b", SitemapDoc.index ["a", "c"]),
         ("c", SitemapDoc.urlset ["p1", "p2"])] 9 "a" []).trace,
      u ∉ ([] : List String) :=
  sitemap_terminates_no_refetch
    [("a", SitemapDoc.index ["b", "c"]), ("b", SitemapDoc.index ["a", "c"]),
     ("c", SitemapDoc.urlset ["p1", "p2"])] "a" [] 9 (by decide)

/-! ## C6/C9: character-level facts -/

theorem char_ofNat_toNat (n : ℕ) (h1 : 97 ≤ n) (h2 : n ≤ 122) :
    (Char.ofNat n).toNat = n := by
  unfold Char.ofNat
  rw [dif_pos]
  · rfl
  · constructor
    omega

theorem toLower_eq_of_not_upper (c : Char)
    (h : ¬(65 ≤ c.toNat ∧ c.toNat ≤ 90)) : c.toLower = c := by
  unfold Char.toLower
  rw [if_neg]
  exact fun hc => h ⟨hc.1, hc.2⟩

theorem toLower_toNat_of_upper (c : Char)
    (h : 65 ≤ c.toNat ∧ c.toNat ≤ 90) : c.toLower.toNat = c.toNat + 32 := by
  unfold Char.toLower
  rw [if_pos ⟨h.1, h.2⟩]
  exact char_ofNat_toNat _ (by omega) (by omega)

theorem toLower_idem (c : Char) : c.toLower.toLower = c.toLower := by
  by_cases h : 65 ≤ c.toNat ∧ c.toNat ≤ 90
  · have h2 := toLower_toNat_of_upper c h
    apply toLower_eq_of_not_upper
    omega
  · rw [toLower_eq_of_not_upper c h, toLower_eq_of_not_upper c h]

theorem isUpper_toNat (c : Char) (h : c.isUpper = true) :
    65 ≤ c.toNat ∧ c.toNat ≤ 90 := by
  simp only [Char.isUpper, Bool.and_eq_true, decide_eq_true_eq] at h
  exact ⟨h.1, h.2⟩

theorem isLower_toNat (c : Char) (h : c.isLower = true) :
    97 ≤ c.toNat ∧ c.toNat ≤ 122 := by
  simp only [Char.isLower, Bool.and_eq_true, decide_eq_true_eq] at h
  exact ⟨h.1, h.2⟩

theorem isLower_of_toNat (c : Char) (h1 : 97 ≤ c.toNat) (h2 : c.toNat ≤ 122) :
    c.isLower = true := by
  simp only [Char.isLower, Bool.and_eq_true, decide_eq_true_eq]
  exact ⟨h1, h2⟩

theorem isAlpha_toLower (c : Char) (h : c.isAlpha = true) :
    c.toLower.isAlpha = true := by
  simp only [Char.isAlpha, Bool.or_eq_true] at h
  rcases h with h | h
  · have hn := isUpper_toNat c h
    have h2 := toLower_toNat_of_upper c hn
    simp only [Char.isAlpha, Bool.or_eq_true]
    exact Or.inr (isLower_of_toNat _ (by omega) (by omega))
  · have hn := isLower_toNat c h
    rw [toLower_eq_of_not_upper c (by omega)]
    simp only [Char.isAlpha, Bool.or_eq_true]
    exact Or.inr h

theorem isSchemeChar_cases (c : Char) (h : isSchemeChar c = true) :
    c.isAlpha = true ∨ c.isDigit = true ∨ c = '+' ∨ c = '-' ∨ c = '.' := by
  simp only [isSchemeChar, Bool.or_eq_true, beq_iff_eq] at h
  tauto

theorem isDigit_toNat (c : Char) (h : c.isDigit = true) :
    48 ≤ c.toNat ∧ c.toNat ≤ 57 := by
  simp only [Char.isDigit, Bool.and_eq_true, decide_eq_true_eq] at h
  exact ⟨h.1, h.2⟩

theorem isSchemeChar_toLower (c : Char) (h : isSchemeChar c = true) :
    isSchemeChar c.toLower = true := by
  rcases isSchemeChar_cases c h with ha | hd | rfl | rfl | rfl
  · have := isAlpha_toLower c ha
    simp only [isSchemeChar, Bool.or_eq_true, beq_iff_eq]
    tauto
  · have hn := isDigit_toNat c hd
    rw [toLower_eq_of_not_upper c (by omega)]
    exact h
  · decide
  · decide
  · decide

theorem isSchemeChar_no_specials (c : Char) (h : isSchemeChar c = true) :
    c ≠ ':' ∧ c ≠ '/' ∧ c ≠ '#' ∧ c ≠ '?' ∧ c ≠ ';' ∧
    isC0OrSpace c = false ∧ c ∉ tabCrLf := by
  refine ⟨?_, ?_, ?_, ?_, ?_, ?_, ?_⟩
  · intro hc; rw [hc] at h; exact absurd h (by decide)
  · intro hc; rw [hc] at h; exact absurd h (by decide)
  · intro hc; rw [hc] at h; exact absurd h (by decide)
  · intro hc; rw [hc] at h; exact absurd h (by decide)
  · intro hc; rw [hc] at h; exact absurd h (by decide)
  · have hge : 43 ≤ c.toNat := by
      rcases isSchemeChar_cases c h with ha | hd | rfl | rfl | rfl
      · simp only [Char.isAlpha, Bool.or_eq_true] at ha
        rcases ha with hu | hl
        · have := isUpper_toNat c hu; omega
        · have := isLower_toNat c hl; omega
      · have := isDigit_toNat c hd; omega
      · decide
      · decide
      · decide
    simp only [isC0OrSpace, decide_eq_false_iff_not]
    intro hle
    have hle2 : c.toNat ≤ 32 := hle
    omega
  · intro hc
    simp only [tabCrLf, List.mem_cons, List.not_mem_nil, or_false] at hc
    rcases hc with rfl | rfl | rfl <;> exact absurd h (by decide)

/-! ## C6/C9: splitter lemmas -/

theorem splitOnFirst_of_not_mem (c : Char) (l : List Char) (h : c ∉ l) :
    splitOnFirst c l = none := by
  induction l with
  | nil => rfl
  | cons x xs ih =>
    simp only [List.mem_cons, not_or] at h
    simp only [splitOnFirst]
    rw [if_neg (fun he : x = c => h.1 he.symm), ih h.2]

theorem splitOnFirst_none_not_mem (c : Char) (l : List Char)
    (h : splitOnFirst c l = none) : c ∉ l := by
  induction l with
  | nil => simp
  | cons x xs ih =>
    simp only [splitOnFirst] at h
    by_cases hx : x = c
    · rw [if_pos hx] at h; cases h
    · rw [if_neg hx] at h
      cases hs : splitOnFirst c xs with
      | none =>
        simp only [List.mem_cons, not_or]
        exact ⟨fun he => hx he.symm, ih hs⟩
      | some p => rw [hs] at h; cases h

theorem splitOnFirst_append_cons (c : Char) (a b : List Char) (h : c ∉ a) :
    splitOnFirst c (a ++ c :: b) = some (a, b) := by
  induction a with
  | nil => simp [splitOnFirst]
  | cons x xs ih =>
    simp only [List.mem_cons, not_or] at h
    simp only [List.cons_append, splitOnFirst, List.append_eq]
    rw [if_neg (fun he : x = c => h.1 he.symm), ih h.2]

theorem splitOnFirst_eq_some (c : Char) (l x y : List Char)
    (h : splitOnFirst c l = some (x, y)) : l = x ++ c :: y ∧ c ∉ x := by
  induction l generalizing x with
  | nil => cases h
  | cons a as ih =>
    simp only [splitOnFirst] at h
    by_cases ha : a = c
    · rw [if_pos ha] at h
      cases h
      subst ha
      exact ⟨rfl, by simp⟩
    · rw [if_neg ha] at h
      cases hs : splitOnFirst c as with
      | none => rw [hs] at h; cases h
      | some p =>
        rw [hs] at h
        cases h
        obtain ⟨h1, h2⟩ := ih p.1 hs
        constructor
        · simp [h1]
        · simp only [List.mem_cons, not_or]
          exact ⟨fun he => ha he.symm, h2⟩

theorem splitOnFirst_append_left (c : Char) (a b x y : List Char)
    (h : splitOnFirst c a = some (x, y)) :
    splitOnFirst c (a ++ b) = some (x, y ++ b) := by
  obtain ⟨h1, h2⟩ := splitOnFirst_eq_some c a x y h
  subst h1
  rw [show (x ++ c :: y) ++ b = x ++ c :: (y ++ b) by simp]
  exact splitOnFirst_append_cons c x (y ++ b) h2

theorem splitOnFirst_mem_some (c : Char) (l : List Char) (h : c ∈ l) :
    ∃ x y, splitOnFirst c l = some (x, y) := by
  cases hs : splitOnFirst c l with
  | none => exact absurd h (splitOnFirst_none_not_mem c l hs)
  | some p =>
    obtain ⟨x, y⟩ := p
    exact ⟨x, y, rfl⟩

theorem splitOnLast_eq_some (c : Char) (l x y : List Char)
    (h : splitOnLast c l = some (x, y)) : l = x ++ c :: y ∧ c ∉ y := by
  unfold splitOnLast at h
  cases hs : splitOnFirst c l.reverse with
  | none => rw [hs] at h; cases h
  | some p =>
    rw [hs] at h
    cases h
    obtain ⟨h1, h2⟩ := splitOnFirst_eq_some c l.reverse p.1 p.2 hs
    constructor
    · have := congrArg List.reverse h1
      simpa using this
    · simpa using h2

theorem splitOnLast_mem_some (c : Char) (l : List Char) (h : c ∈ l) :
    ∃ x y, splitOnLast c l = some (x, y) := by
  unfold splitOnLast
  obtain ⟨x, y, hs⟩ := splitOnFirst_mem_some c l.reverse (by simpa using h)
  exact ⟨y.reverse, x.reverse, by rw [hs]⟩

theorem splitOnLast_append_right (c : Char) (a b x y : List Char)
    (hb : splitOnLast c b = some (x, y)) :
    splitOnLast c (a ++ b) = some (a ++ x, y) := by
  obtain ⟨h1, h2⟩ := splitOnLast_eq_some c b x y hb
  subst h1
  unfold splitOnLast
  rw [show (a ++ (x ++ c :: y)).reverse
      = y.reverse ++ c :: (x.reverse ++ a.reverse) by simp]
  rw [splitOnFirst_append_cons c y.reverse (x.reverse ++ a.reverse)
    (by simpa using h2)]
  simp

theorem takeWhile_dropWhile_append (p : Char → Bool) (a b : List Char)
    (ha : ∀ x ∈ a, p x = true)
    (hb : b = [] ∨ ∃ h t, b = h :: t ∧ p h = false) :
    (a ++ b).takeWhile p = a ∧ (a ++ b).dropWhile p = b := by
  induction a with
  | nil =>
    simp only [List.nil_append]
    rcases hb with rfl | ⟨h, t, rfl, hph⟩
    · simp
    · simp [List.takeWhile, List.dropWhile, hph]
  | cons x xs ih =>
    have hx : p x = true := ha x (List.mem_cons_self x xs)
    obtain ⟨ih1, ih2⟩ := ih (fun z hz => ha z (List.mem_cons_of_mem x hz))
    simp [List.takeWhile, List.dropWhile, hx, ih1, ih2]

/-! ## C6/C9: params-split and stage lemmas -/

/-- `splitParamsChars` either leaves the path whole or cuts it at a
`;`, so the path part is always a prefix-with-semicolon decomposition. -/
theorem splitParams_cases (p : List Char) :
    splitParamsChars p = (p, []) ∨
    p = (splitParamsChars p).1 ++ ';' :: (splitParamsChars p).2 := by
  unfold splitParamsChars
  by_cases hc : p.contains '/' = true
  · rw [if_pos hc]
    have hmem : '/' ∈ p := by simpa using hc
    obtain ⟨x, y, hs⟩ := splitOnLast_mem_some '/' p hmem
    cases hf : splitOnFirst ';' y with
    | none =>
      simp only [hs, hf]
      exact Or.inl trivial
    | some q =>
      obtain ⟨a, b⟩ := q
      obtain ⟨h1, _⟩ := splitOnFirst_eq_some ';' y a b hf
      obtain ⟨h2, _⟩ := splitOnLast_eq_some '/' p x y hs
      simp only [hs, hf]
      refine Or.inr ?_
      rw [h2, h1]
      simp
  · rw [if_neg hc]
    cases hf : splitOnFirst ';' p with
    | none =>
      simp only [hf]
      exact Or.inl trivial
    | some q =>
      obtain ⟨a, b⟩ := q
      obtain ⟨h1, _⟩ := splitOnFirst_eq_some ';' p a b hf
      simp only [hf]
      exact Or.inr h1

/-- If the path has a `/` and its last segment has no `;`, no params are
split off. -/
theorem splitParams_no_semi (p : List Char) (hmem : '/' ∈ p)
    (hsemi : ';' ∉ afterLastSlash p) : splitParamsChars p = (p, []) := by
  unfold splitParamsChars
  rw [if_pos (show p.contains '/' = true by simpa using hmem)]
  obtain ⟨x, y, hs⟩ := splitOnLast_mem_some '/' p hmem
  have hy : afterLastSlash p = y := by
    unfold afterLastSlash
    simp only [hs]
  rw [hy] at hsemi
  simp only [hs, splitOnFirst_of_not_mem ';' y hsemi]

/-- The path part keeps a leading slash and stays nonempty. -/
theorem splitParams_head (p : List Char) (hh : p.head? = some '/') :
    (splitParamsChars p).1.head? = some '/' ∧ (splitParamsChars p).1 ≠ [] := by
  rcases splitParams_cases p with h | h
  · rw [h]
    exact ⟨hh, by rintro rfl; cases hh⟩
  · cases hx : (splitParamsChars p).1 with
    | nil =>
      rw [hx] at h
      simp only [List.nil_append] at h
      rw [h] at hh
      cases hh
    | cons a as =>
      rw [hx] at h
      rw [h] at hh
      simp only [List.cons_append, List.head?_cons, Option.some.injEq] at hh
      subst hh
      exact ⟨rfl, by simp⟩

/-- Every character of the path part comes from the input path. -/
theorem splitParams_subset (p : List Char) (c : Char)
    (hc : c ∈ (splitParamsChars p).1) : c ∈ p := by
  rcases splitParams_cases p with h | h
  · rw [h] at hc; exact hc
  · rw [h]
    exact List.mem_append_left _ hc

theorem splitParams_nil : splitParamsChars [] = ([], []) := by decide

/-- The gated params split also yields a prefix-with-semicolon
decomposition or the whole path. -/
theorem paramsSplitIf_cases (s p : List Char) :
    paramsSplitIf s p = (p, []) ∨
    p = (paramsSplitIf s p).1 ++ ';' :: (paramsSplitIf s p).2 := by
  unfold paramsSplitIf
  by_cases hg : s ∈ uses_params ∧ ';' ∈ p
  · rw [if_pos hg]
    exact splitParams_cases p
  · rw [if_neg hg]
    exact Or.inl rfl

/-- When the path has a `/` and its last segment has no `;`, the gated
split leaves the path whole for every scheme. -/
theorem paramsSplitIf_no_semi (s p : List Char) (hmem : '/' ∈ p)
    (hsemi : ';' ∉ afterLastSlash p) : paramsSplitIf s p = (p, []) := by
  unfold paramsSplitIf
  by_cases hg : s ∈ uses_params ∧ ';' ∈ p
  · rw [if_pos hg]
    exact splitParams_no_semi p hmem hsemi
  · rw [if_neg hg]

/-- The gated split's path part keeps a leading slash and stays
nonempty. -/
theorem paramsSplitIf_head (s p : List Char) (hh : p.head? = some '/') :
    (paramsSplitIf s p).1.head? = some '/' ∧ (paramsSplitIf s p).1 ≠ [] := by
  unfold paramsSplitIf
  by_cases hg : s ∈ uses_params ∧ ';' ∈ p
  · rw [if_pos hg]
    exact splitParams_head p hh
  · rw [if_neg hg]
    exact ⟨hh, by rintro rfl; cases hh⟩

/-- Every character of the gated split's path part comes from the
input path. -/
theorem paramsSplitIf_subset (s p : List Char) (c : Char)
    (hc : c ∈ (paramsSplitIf s p).1) : c ∈ p := by
  unfold paramsSplitIf at hc
  by_cases hg : s ∈ uses_params ∧ ';' ∈ p
  · rw [if_pos hg] at hc
    exact splitParams_subset p c hc
  · rw [if_neg hg] at hc
    exact hc

theorem paramsSplitIf_nil (s : List Char) :
    paramsSplitIf s [] = ([], []) := by
  simp [paramsSplitIf]

/-- Scheme step on an arbitrary URL: empty, or a lowercased valid
scheme name. -/
theorem schemeSplit_shape (u : List Char) :
    (schemeSplit u).1 = [] ∨
    (validSchemeName (schemeSplit u).1 = true ∧
     (schemeSplit u).1.map Char.toLower = (schemeSplit u).1 ∧
     (schemeSplit u).1 ≠ []) := by
  cases hs : splitOnFirst ':' u with
  | none => simp only [schemeSplit, hs]; exact Or.inl trivial
  | some q =>
    obtain ⟨pre, post⟩ := q
    by_cases hv : validSchemeName pre = true
    · simp only [schemeSplit, hs, if_pos hv]
      refine Or.inr ⟨?_, ?_, ?_⟩
      · cases pre with
        | nil => exact absurd hv (by decide)
        | cons a as =>
          simp only [validSchemeName, Bool.and_eq_true, List.all_eq_true]
            at hv
          simp only [List.map_cons, validSchemeName, Bool.and_eq_true,
            List.all_eq_true]
          constructor
          · exact isAlpha_toLower a hv.1
          · intro x hx
            simp only [List.mem_cons, List.mem_map] at hx
            rcases hx with rfl | ⟨b, hb, rfl⟩
            · exact isSchemeChar_toLower a (hv.2 a (by simp))
            · exact isSchemeChar_toLower b (hv.2 b (by simp [hb]))
      · rw [List.map_map]
        apply List.map_congr_left
        intro a _
        exact toLower_idem a
      · cases pre with
        | nil => exact absurd hv (by decide)
        | cons a as => simp
    · simp only [schemeSplit, hs, if_neg hv]
      exact Or.inl trivial

/-- Scheme step on a reconstructed URL whose scheme is already a
lowercase valid name. -/
theorem schemeSplit_build (s r : List Char) (hv : validSchemeName s = true)
    (hlow : s.map Char.toLower = s) :
    schemeSplit (s ++ ':' :: r) = (s, r) := by
  have hnc : ':' ∉ s := by
    intro hc
    have hall : ∀ c ∈ s, isSchemeChar c = true := by
      cases s with
      | nil => simp
      | cons a as =>
        simp only [validSchemeName, Bool.and_eq_true, List.all_eq_true] at hv
        exact hv.2
    exact (isSchemeChar_no_specials ':' (hall ':' hc)).1 rfl
  simp only [schemeSplit, splitOnFirst_append_cons ':' s r hnc,
    if_pos hv, hlow]

/-- Netloc step on a reconstructed URL: an allow-listed host followed by
an empty or slash-leading path. -/
theorem netlocSplit_build (h t : List Char)
    (hh : h = "good-apps.jp".data ∨ h = "www.good-apps.jp".data)
    (ht : t = [] ∨ t.head? = some '/') :
    netlocSplit ('/' :: '/' :: (h ++ t)) = (h, t) := by
  have hstep := takeWhile_dropWhile_append
    (fun c => !netlocStopChars.contains c) h t
    (by
      rcases hh with rfl | rfl <;> decide)
    (by
      rcases ht with rfl | hht
      · exact Or.inl rfl
      · cases t with
        | nil => exact Or.inl rfl
        | cons a t2 =>
          simp only [List.head?_cons, Option.some.injEq] at hht
          subst hht
          exact Or.inr ⟨'/', t2, rfl, by decide⟩)
  simp only [netlocSplit, hstep.1, hstep.2]

/-- Fragment step when there is no `#`. -/
theorem fragmentSplit_no_hash (u : List Char) (h : '#' ∉ u) :
    fragmentSplit u = (u, []) := by
  simp only [fragmentSplit, splitOnFirst_of_not_mem '#' u h]

/-- Query step when there is no `?`. -/
theorem querySplit_no_query (u : List Char) (h : '?' ∉ u) :
    querySplit u = (u, []) := by
  simp only [querySplit, splitOnFirst_of_not_mem '?' u h]

/-- The pre-fragment part has no `#` and is drawn from the input. -/
theorem fragmentSplit_fst_facts (u : List Char) :
    '#' ∉ (fragmentSplit u).1 ∧ ∀ c ∈ (fragmentSplit u).1, c ∈ u := by
  cases hs : splitOnFirst '#' u with
  | none =>
    simp only [fragmentSplit, hs]
    exact ⟨splitOnFirst_none_not_mem '#' u hs, fun c hc => hc⟩
  | some q =>
    obtain ⟨x, y⟩ := q
    obtain ⟨h1, h2⟩ := splitOnFirst_eq_some '#' u x y hs
    simp only [fragmentSplit, hs]
    exact ⟨h2, fun c hc => by rw [h1]; exact List.mem_append_left _ hc⟩

/-- The pre-query part has no `?` and is drawn from the input. -/
theorem querySplit_fst_facts (u : List Char) :
    '?' ∉ (querySplit u).1 ∧ ∀ c ∈ (querySplit u).1, c ∈ u := by
  cases hs : splitOnFirst '?' u with
  | none =>
    simp only [querySplit, hs]
    exact ⟨splitOnFirst_none_not_mem '?' u hs, fun c hc => hc⟩
  | some q =>
    obtain ⟨x, y⟩ := q
    obtain ⟨h1, h2⟩ := splitOnFirst_eq_some '?' u x y hs
    simp only [querySplit, hs]
    exact ⟨h2, fun c hc => by rw [h1]; exact List.mem_append_left _ hc⟩

/-- Head preservation through the fragment step. -/
theorem fragmentSplit_head (u : List Char) (a : Char)
    (hh : u.head? = some a) (hne : a ≠ '#') :
    (fragmentSplit u).1.head? = some a := by
  cases u with
  | nil => cases hh
  | cons x xs =>
    have hxa : x = a := by simpa using hh
    subst hxa
    cases hs : splitOnFirst '#' (x :: xs) with
    | none => simp only [fragmentSplit, hs, List.head?_cons]
    | some q =>
      obtain ⟨x1, y1⟩ := q
      simp only [fragmentSplit, hs]
      simp only [splitOnFirst, if_neg (fun he : x = '#' => hne he)] at hs
      cases ht : splitOnFirst '#' xs with
      | none => rw [ht] at hs; cases hs
      | some p =>
        rw [ht] at hs
        cases hs
        simp

/-- Head preservation through the query step. -/
theorem querySplit_head (u : List Char) (a : Char)
    (hh : u.head? = some a) (hne : a ≠ '?') :
    (querySplit u).1.head? = some a := by
  cases u with
  | nil => cases hh
  | cons x xs =>
    have hxa : x = a := by simpa using hh
    subst hxa
    cases hs : splitOnFirst '?' (x :: xs) with
    | none => simp only [querySplit, hs, List.head?_cons]
    | some q =>
      obtain ⟨x1, y1⟩ := q
      simp only [querySplit, hs]
      simp only [splitOnFirst, if_neg (fun he : x = '?' => hne he)] at hs
      cases ht : splitOnFirst '?' xs with
      | none => rw [ht] at hs; cases hs
      | some p =>
        rw [ht] at hs
        cases hs
        simp

/-- Splitting a URL that begins with the split character empties it. -/
theorem fragmentSplit_hash_head (r : List Char) :
    fragmentSplit ('#' :: r) = ([], r) := by
  simp [fragmentSplit, splitOnFirst]

theorem querySplit_query_head (r : List Char) :
    querySplit ('?' :: r) = ([], r) := by
  simp [querySplit, splitOnFirst]

/-- Characters surviving the netloc step come from its input. -/
theorem netlocSplit_snd_subset (x : List Char) (c : Char)
    (hc : c ∈ (netlocSplit x).2) : c ∈ x := by
  unfold netlocSplit at hc
  split at hc
  · next rest =>
    exact List.mem_cons_of_mem _ (List.mem_cons_of_mem _
      ((List.dropWhile_sublist _).mem hc))
  · exact hc

/-- Characters surviving the scheme step come from its input. -/
theorem schemeSplit_snd_subset (x : List Char) (c : Char)
    (hc : c ∈ (schemeSplit x).2) : c ∈ x := by
  cases hs : splitOnFirst ':' x with
  | none => simp only [schemeSplit, hs] at hc; exact hc
  | some q =>
    obtain ⟨pre, post⟩ := q
    obtain ⟨h1, _⟩ := splitOnFirst_eq_some ':' x pre post hs
    by_cases hv : validSchemeName pre = true
    · simp only [schemeSplit, hs, if_pos hv] at hc
      rw [h1]
      exact List.mem_append_right _ (List.mem_cons_of_mem _ hc)
    · simp only [schemeSplit, hs, if_neg hv] at hc
      exact hc

/-- Characters of the sanitized URL avoid tab, CR and LF. -/
theorem sanitize_mem_clean (u : List Char) (c : Char)
    (hc : c ∈ sanitizeUrl u) : c ∉ tabCrLf := by
  unfold sanitizeUrl at hc
  rw [List.mem_filter] at hc
  simpa using hc.2

/-- `dropWhile` yields nothing or a head failing the predicate. -/
theorem dropWhile_shape (p : Char → Bool) (l : List Char) :
    l.dropWhile p = [] ∨
    ∃ h t, l.dropWhile p = h :: t ∧ p h = false := by
  induction l with
  | nil => exact Or.inl rfl
  | cons x xs ih =>
    by_cases hx : p x = true
    · simpa [List.dropWhile, hx] using ih
    · refine Or.inr ⟨x, xs, ?_, by simpa using hx⟩
      simp [List.dropWhile, hx]

/-- With a nonempty netloc, the remaining URL is empty or starts with a
netloc-terminating character. -/
theorem netlocSplit_snd_shape (x : List Char)
    (hn : (netlocSplit x).1 ≠ []) :
    (netlocSplit x).2 = [] ∨
    ∃ r, (netlocSplit x).2 = '/' :: r ∨ (netlocSplit x).2 = '?' :: r ∨
      (netlocSplit x).2 = '#' :: r := by
  unfold netlocSplit at hn ⊢
  split at hn
  · next rest =>
    rcases dropWhile_shape (fun c => !netlocStopChars.contains c) rest with
      hd | ⟨h, t, hd, hp⟩
    · exact Or.inl hd
    · have hh : h ∈ netlocStopChars := by
        simpa using hp
      simp only [netlocStopChars, List.mem_cons, List.not_mem_nil, or_false]
        at hh
      refine Or.inr ⟨t, ?_⟩
      rcases hh with rfl | rfl | rfl
      · exact Or.inl hd
      · exact Or.inr (Or.inl hd)
      · exact Or.inr (Or.inr hd)
  · exact absurd rfl hn

/-- Inversion of a successful `urlsplit`: the parts in terms of the
stage functions, with the bracket test false. -/
theorem urlsplit_ok_inv (u : List Char) (pr : UrlParts)
    (h : urlsplitChars u = .ok pr) :
    unbalancedBrackets (netlocSplit (schemeSplit (sanitizeUrl u)).2).1
        = false ∧
    pr = ⟨(schemeSplit (sanitizeUrl u)).1,
      (netlocSplit (schemeSplit (sanitizeUrl u)).2).1,
      (querySplit (fragmentSplit
        (netlocSplit (schemeSplit (sanitizeUrl u)).2).2).1).1, [],
      (querySplit (fragmentSplit
        (netlocSplit (schemeSplit (sanitizeUrl u)).2).2).1).2,
      (fragmentSplit (netlocSplit (schemeSplit (sanitizeUrl u)).2).2).2⟩ := by
  simp only [urlsplitChars] at h
  by_cases hb : unbalancedBrackets
      (netlocSplit (schemeSplit (sanitizeUrl u)).2).1 = true
  · rw [if_pos hb] at h
    cases h
  · rw [if_neg hb] at h
    exact ⟨by simpa using hb, (Except.ok.inj h).symm⟩

/-- Inversion of a successful `urlparse`: a successful `urlsplit` whose
path undergoes the gated params split. -/
theorem urlparse_ok_inv (u : List Char) (pr : UrlParts)
    (h : urlparseChars u = .ok pr) :
    ∃ s, urlsplitChars u = .ok s ∧
      pr = ⟨s.scheme, s.netloc, (paramsSplitIf s.scheme s.path).1,
        (paramsSplitIf s.scheme s.path).2, s.query, s.fragment⟩ := by
  cases hs : urlsplitChars u with
  | error e =>
    have he : urlparseChars u = .error e := by
      simp only [urlparseChars, hs]
    rw [h] at he
    cases he
  | ok s =>
    simp only [urlparseChars, hs] at h
    exact ⟨s, rfl, (Except.ok.inj h).symm⟩

/-- The path of a split URL contains no `#`, `?`, tab, CR or LF. -/
theorem urlsplit_path_clean (u : List Char) (pr : UrlParts)
    (h : urlsplitChars u = .ok pr) :
    '#' ∉ pr.path ∧ '?' ∉ pr.path ∧
    ∀ c ∈ pr.path, c ∉ tabCrLf := by
  obtain ⟨-, rfl⟩ := urlsplit_ok_inv u pr h
  have hq := querySplit_fst_facts
    (fragmentSplit (netlocSplit (schemeSplit (sanitizeUrl u)).2).2).1
  have hf := fragmentSplit_fst_facts
    (netlocSplit (schemeSplit (sanitizeUrl u)).2).2
  refine ⟨fun hc => hf.1 (hq.2 '#' hc), hq.1, ?_⟩
  intro c hc
  exact sanitize_mem_clean u c
    (schemeSplit_snd_subset _ c
      (netlocSplit_snd_subset _ c (hf.2 c (hq.2 c hc))))

/-- With a nonempty netloc, the split path is empty or slash-leading. -/
theorem urlsplit_path_shape (u : List Char) (pr : UrlParts)
    (h : urlsplitChars u = .ok pr) (hn : pr.netloc ≠ []) :
    pr.path = [] ∨ pr.path.head? = some '/' := by
  obtain ⟨-, rfl⟩ := urlsplit_ok_inv u pr h
  have hshape := netlocSplit_snd_shape (schemeSplit (sanitizeUrl u)).2 hn
  rcases hshape with hd | ⟨r, hd | hd | hd⟩
  · show (querySplit (fragmentSplit _).1).1 = [] ∨ _
    rw [hd, fragmentSplit_no_hash [] (by simp),
      querySplit_no_query [] (by simp)]
    exact Or.inl rfl
  · refine Or.inr ?_
    show (querySplit (fragmentSplit _).1).1.head? = some '/'
    rw [hd]
    apply querySplit_head _ '/' _ (by decide)
    exact fragmentSplit_head _ '/' (by simp) (by decide)
  · show (querySplit (fragmentSplit _).1).1 = [] ∨ _
    rw [hd]
    have hfh := fragmentSplit_head ('?' :: r) '?' (by simp) (by decide)
    cases hfe : (fragmentSplit ('?' :: r)).1 with
    | nil => rw [querySplit_no_query [] (by simp)]; exact Or.inl rfl
    | cons a as =>
      rw [hfe] at hfh
      simp only [List.head?_cons, Option.some.injEq] at hfh
      subst hfh
      rw [querySplit_query_head as]
      exact Or.inl rfl
  · show (querySplit (fragmentSplit _).1).1 = [] ∨ _
    rw [hd, fragmentSplit_hash_head r, querySplit_no_query [] (by simp)]
    exact Or.inl rfl

/-- The parsed path contains no `#`, `?`, tab, CR or LF; with a
nonempty netloc it is empty or slash-leading. -/
theorem urlparse_path_facts (u : List Char) (pr : UrlParts)
    (h : urlparseChars u = .ok pr) :
    '#' ∉ pr.path ∧ '?' ∉ pr.path ∧
    (∀ c ∈ pr.path, c ∉ tabCrLf) ∧
    (pr.netloc ≠ [] →
      pr.path = [] ∨ pr.path.head? = some '/') := by
  obtain ⟨s, hs, rfl⟩ := urlparse_ok_inv u pr h
  obtain ⟨h1, h2, h3⟩ := urlsplit_path_clean u s hs
  have hsub : ∀ c ∈ (paramsSplitIf s.scheme s.path).1, c ∈ s.path :=
    fun c hc => paramsSplitIf_subset _ _ c hc
  refine ⟨fun hc => h1 (hsub _ hc), fun hc => h2 (hsub _ hc),
    fun c hc => h3 c (hsub c hc), ?_⟩
  intro hn
  have hn' : s.netloc ≠ [] := hn
  rcases urlsplit_path_shape u s hs hn' with hp | hp
  · left
    show (paramsSplitIf s.scheme s.path).1 = []
    rw [hp, paramsSplitIf_nil]
  · right
    exact (paramsSplitIf_head _ _ hp).1

/-- The parsed scheme is empty or a lowercase-fixed valid scheme name. -/
theorem urlparse_scheme_facts (u : List Char) (pr : UrlParts)
    (h : urlparseChars u = .ok pr) :
    pr.scheme = [] ∨
    (validSchemeName pr.scheme = true ∧
     pr.scheme.map Char.toLower = pr.scheme ∧
     pr.scheme ≠ []) := by
  obtain ⟨s, hs, rfl⟩ := urlparse_ok_inv u pr h
  obtain ⟨-, rfl⟩ := urlsplit_ok_inv u s hs
  exact schemeSplit_shape (sanitizeUrl u)

/-- Reconstructed URLs are already sanitized. -/
theorem sanitize_build (s h t : List Char)
    (hv : validSchemeName s = true)
    (hh : h = "good-apps.jp".data ∨ h = "www.good-apps.jp".data)
    (hcl : ∀ c ∈ t, c ∉ tabCrLf) :
    sanitizeUrl (s ++ ':' :: '/' :: '/' :: (h ++ t))
      = s ++ ':' :: '/' :: '/' :: (h ++ t) := by
  have hall : ∀ c ∈ s, isSchemeChar c = true := by
    cases s with
    | nil => simp
    | cons a as =>
      simp only [validSchemeName, Bool.and_eq_true, List.all_eq_true] at hv
      exact hv.2
  unfold sanitizeUrl
  have hdrop : (s ++ ':' :: '/' :: '/' :: (h ++ t)).dropWhile isC0OrSpace
      = s ++ ':' :: '/' :: '/' :: (h ++ t) := by
    cases s with
    | nil => exact absurd hv (by decide)
    | cons a as =>
      have ha : isC0OrSpace a = false :=
        (isSchemeChar_no_specials a (hall a (by simp))).2.2.2.2.2.1
      simp [List.dropWhile, ha]
  rw [hdrop]
  apply List.filter_eq_self.mpr
  intro c hc
  simp only [List.mem_append, List.mem_cons] at hc
  simp only [Bool.not_eq_eq_eq_not, Bool.not_true]
  rcases hc with hcs | rfl | rfl | rfl | hcht
  · have := (isSchemeChar_no_specials c (hall c hcs)).2.2.2.2.2.2
    simpa using this
  · decide
  · decide
  · decide
  · rcases hcht with hch | hct
    · rcases hh with rfl | rfl
      · have hall : ∀ x ∈ ("good-apps.jp".data), x ∉ tabCrLf := by decide
        simpa using hall c hch
      · have hall : ∀ x ∈ ("www.good-apps.jp".data), x ∉ tabCrLf := by
          decide
        simpa using hall c hch
    · simpa using hcl c hct

/-- `urlsplit` of a reconstructed URL recovers its parts. -/
theorem urlsplit_build (s h t : List Char)
    (hv : validSchemeName s = true) (hlow : s.map Char.toLower = s)
    (hh : h = "good-apps.jp".data ∨ h = "www.good-apps.jp".data)
    (ht : t = [] ∨ t.head? = some '/')
    (hhash : '#' ∉ t) (hq : '?' ∉ t) (hcl : ∀ c ∈ t, c ∉ tabCrLf) :
    urlsplitChars (s ++ ':' :: '/' :: '/' :: (h ++ t))
      = .ok ⟨s, h, t, [], [], []⟩ := by
  simp only [urlsplitChars]
  rw [sanitize_build s h t hv hh hcl,
    schemeSplit_build s ('/' :: '/' :: (h ++ t)) hv hlow]
  simp only [netlocSplit_build h t hh ht]
  have hb : ¬ unbalancedBrackets h = true := by
    rcases hh with rfl | rfl <;> decide
  rw [if_neg hb]
  simp only [fragmentSplit_no_hash t hhash, querySplit_no_query t hq]

/-- `urlparse` of a reconstructed URL recovers its parts, with the
gated params split applied to the path. -/
theorem urlparse_build (s h t : List Char)
    (hv : validSchemeName s = true) (hlow : s.map Char.toLower = s)
    (hh : h = "good-apps.jp".data ∨ h = "www.good-apps.jp".data)
    (ht : t = [] ∨ t.head? = some '/')
    (hhash : '#' ∉ t) (hq : '?' ∉ t) (hcl : ∀ c ∈ t, c ∉ tabCrLf) :
    urlparseChars (s ++ ':' :: '/' :: '/' :: (h ++ t))
      = .ok ⟨s, h, (paramsSplitIf s t).1, (paramsSplitIf s t).2, [], []⟩ := by
  simp only [urlparseChars, urlsplit_build s h t hv hlow hh ht hhash hq hcl]

/-- `urlunparse` on a nonempty scheme, nonempty netloc and an empty or
slash-leading path. -/
theorem urlunparse_build (s n p : List Char) (hs : s ≠ []) (hn : n ≠ [])
    (hp : p = [] ∨ p.head? = some '/') :
    urlunparseChars s n p = s ++ ':' :: '/' :: '/' :: (n ++ p) := by
  simp only [urlunparseChars]
  rw [if_pos (Or.inl hn)]
  have hins : ¬(p ≠ [] ∧ p.head? ≠ some '/') := by
    rcases hp with rfl | hp
    · intro hcon; exact hcon.1 rfl
    · intro hcon; exact hcon.2 hp
  rw [if_neg hins, if_pos hs]

/-- `dropLast` through the reconstructed URL's fixed prefix. -/
theorem dropLast_build (S n p : List Char) (hp : p ≠ []) :
    (S ++ ':' :: '/' :: '/' :: (n ++ p)).dropLast
      = S ++ ':' :: '/' :: '/' :: (n ++ p.dropLast) := by
  rw [show S ++ ':' :: '/' :: '/' :: (n ++ p)
      = (S ++ ':' :: '/' :: '/' :: n) ++ p by simp,
    List.dropLast_append_of_ne_nil _ hp]
  simp

/-- Structure of every accepted `normalize_url` output: a successful
parse, a lowercase valid non-`http` scheme, an allow-listed host, and a
nonempty slash-leading path free of `#`, `?`, tab, CR and LF. -/
theorem normalize_shape (u v : List Char)
    (h : normalizeUrlChars u = .ok (some v)) :
    ∃ pr s hst P, urlparseChars u = .ok pr ∧
      v = s ++ ':' :: '/' :: '/' :: (hst ++ P) ∧
      validSchemeName s = true ∧ s.map Char.toLower = s ∧
      s ≠ "http".data ∧
      s = (if pr.scheme = [] then "https".data
        else if pr.scheme = "http".data then "https".data
        else pr.scheme) ∧
      (hst = "good-apps.jp".data ∨ hst = "www.good-apps.jp".data) ∧
      P ≠ [] ∧ P.head? = some '/' ∧ '#' ∉ P ∧ '?' ∉ P ∧
      (∀ c ∈ P, c ∉ tabCrLf) := by
  cases hpr : urlparseChars u with
  | error e =>
    have he : normalizeUrlChars u = .error e := by
      simp only [normalizeUrlChars, hpr]
    rw [h] at he
    cases he
  | ok parsed =>
  simp only [normalizeUrlChars, hpr] at h
  by_cases h1 : parsed.netloc = []
  · rw [if_pos h1] at h; simp at h
  rw [if_neg h1] at h
  by_cases h2 : parsed.netloc ∉ allowed_domains
  · rw [if_pos h2] at h; simp at h
  rw [if_neg h2] at h
  rw [not_not] at h2
  have hh : parsed.netloc = "good-apps.jp".data ∨
      parsed.netloc = "www.good-apps.jp".data := by
    simpa [allowed_domains] using h2
  -- the replaced scheme and its facts
  set S := (if parsed.scheme = [] then "https".data
    else if parsed.scheme = "http".data then "https".data
    else parsed.scheme) with hS
  have hSfacts : validSchemeName S = true ∧ S.map Char.toLower = S ∧
      S ≠ "http".data ∧ S ≠ [] := by
    rcases urlparse_scheme_facts u parsed hpr with hsch | ⟨hv, hlow, hne⟩
    · rw [hS, if_pos hsch]
      refine ⟨by decide, by decide, by decide, by decide⟩
    · by_cases he : parsed.scheme = []
      · rw [hS, if_pos he]
        refine ⟨by decide, by decide, by decide, by decide⟩
      · by_cases hhttp : parsed.scheme = "http".data
        · rw [hS, if_neg he, if_pos hhttp]
          refine ⟨by decide, by decide, by decide, by decide⟩
        · rw [hS, if_neg he, if_neg hhttp]
          exact ⟨hv, hlow, hhttp, hne⟩
  obtain ⟨hSv, hSlow, hShttp, hSne⟩ := hSfacts
  obtain ⟨hp1, hp2, hp3, hp4⟩ := urlparse_path_facts u parsed hpr
  have hpath := hp4 h1
  -- the reassembled URL
  rw [urlunparse_build S parsed.netloc parsed.path hSne h1 hpath] at h
  by_cases hC : (S ++ ':' :: '/' :: '/'
        :: (parsed.netloc ++ parsed.path)).getLast?
      = some '/' ∧ parsed.path ≠ [] ∧ parsed.path ≠ ['/']
  · rw [if_pos hC] at h
    obtain ⟨hCl, hCne, hCroot⟩ := hC
    rw [dropLast_build S _ _ hCne] at h
    -- the trimmed path and its facts
    have hthead : parsed.path.dropLast.head? = some '/' ∧
        parsed.path.dropLast ≠ [] := by
      rcases hpath with hpe | hph
      · exact absurd hpe hCne
      · cases hpe : parsed.path with
        | nil => exact absurd hpe hCne
        | cons a rest =>
          rw [hpe] at hph
          simp only [List.head?_cons, Option.some.injEq] at hph
          subst hph
          cases rest with
          | nil => exact absurd hpe hCroot
          | cons b r2 =>
            constructor
            · simp [List.dropLast]
            · simp [List.dropLast]
    have htsub : ∀ c ∈ parsed.path.dropLast, c ∈ parsed.path :=
      fun c hc => List.mem_of_mem_dropLast hc
    have hth : '#' ∉ parsed.path.dropLast :=
      fun hc => hp1 (htsub _ hc)
    have htq : '?' ∉ parsed.path.dropLast :=
      fun hc => hp2 (htsub _ hc)
    have htc : ∀ c ∈ parsed.path.dropLast, c ∉ tabCrLf :=
      fun c hc => hp3 c (htsub c hc)
    simp only [urlparse_build S parsed.netloc
      parsed.path.dropLast hSv hSlow hh
      (Or.inr hthead.1) hth htq htc] at h
    have hne2 : (paramsSplitIf S parsed.path.dropLast).1 ≠ [] :=
      (paramsSplitIf_head _ _ hthead.1).2
    rw [if_neg hne2] at h
    refine ⟨parsed, S, parsed.netloc, parsed.path.dropLast, rfl,
      ?_, hSv, hSlow, hShttp, hS, hh, hthead.2, hthead.1, hth, htq, htc⟩
    exact (Option.some.inj (Except.ok.inj h)).symm
  · rw [if_neg hC] at h
    rcases hpath with hpe | hph
    · -- empty path: a slash is appended
      rw [hpe] at h
      simp only [urlparse_build S parsed.netloc [] hSv hSlow hh
        (Or.inl rfl) (by simp) (by simp) (by simp)] at h
      rw [if_pos (by simp [paramsSplitIf_nil])] at h
      refine ⟨parsed, S, parsed.netloc, ['/'], rfl, ?_, hSv, hSlow,
        hShttp, hS, hh, by simp, rfl, by decide, by decide, by decide⟩
      have hv2 := Option.some.inj (Except.ok.inj h)
      rw [← hv2]
      simp
    · simp only [urlparse_build S parsed.netloc parsed.path
        hSv hSlow hh (Or.inr hph) hp1 hp2 hp3] at h
      have hne2 : (paramsSplitIf S parsed.path).1 ≠ [] :=
        (paramsSplitIf_head _ _ hph).2
      rw [if_neg hne2] at h
      have hpne : parsed.path ≠ [] := by
        intro he; rw [he] at hph; cases hph
      refine ⟨parsed, S, parsed.netloc, parsed.path, rfl,
        ?_, hSv, hSlow, hShttp, hS, hh, hpne, hph, hp1, hp2, hp3⟩
      exact (Option.some.inj (Except.ok.inj h)).symm

/-- The after-last-slash suffix only depends on the part containing the
last slash. -/
theorem afterLastSlash_append (a b : List Char) (h : '/' ∈ b) :
    afterLastSlash (a ++ b) = afterLastSlash b := by
  obtain ⟨x, y, hs⟩ := splitOnLast_mem_some '/' b h
  simp only [afterLastSlash, splitOnLast_append_right '/' a b x y hs, hs]

/-- The reconstructed URL's last character is the path's last
character. -/
theorem getLast_build (s hst P : List Char) (hPne : P ≠ []) :
    (s ++ ':' :: '/' :: '/' :: (hst ++ P)).getLast? = P.getLast? := by
  rw [show s ++ ':' :: '/' :: '/' :: (hst ++ P)
      = (s ++ ':' :: '/' :: '/' :: hst) ++ P by simp,
    List.getLast?_append]
  cases hP : P.getLast? with
  | none => exact absurd (List.getLast?_eq_none_iff.mp hP) hPne
  | some z => rfl

/-- `normalize_url` maps a canonical URL of the shape it produces back
to itself, provided the path does not end with a redundant `/` and its
last segment exposes no `;`. -/
theorem normalize_fixed (s hst P : List Char)
    (hv : validSchemeName s = true) (hlow : s.map Char.toLower = s)
    (hhttp : s ≠ "http".data)
    (hh : hst = "good-apps.jp".data ∨ hst = "www.good-apps.jp".data)
    (hPne : P ≠ []) (hPh : P.head? = some '/') (hhash : '#' ∉ P)
    (hq : '?' ∉ P) (hcl : ∀ c ∈ P, c ∉ tabCrLf)
    (hsplit : paramsSplitIf s P = (P, []))
    (hcase : P = ['/'] ∨ P.getLast? ≠ some '/') :
    normalizeUrlChars (s ++ ':' :: '/' :: '/' :: (hst ++ P))
      = .ok (some (s ++ ':' :: '/' :: '/' :: (hst ++ P))) := by
  have hparse := urlparse_build s hst P hv hlow hh (Or.inr hPh) hhash hq hcl
  have hsne : s ≠ [] := by
    intro he; rw [he] at hv; exact absurd hv (by decide)
  have hst_ne : hst ≠ [] := by rcases hh with rfl | rfl <;> decide
  have hst_mem : hst ∈ allowed_domains := by
    rcases hh with rfl | rfl <;> decide
  simp only [normalizeUrlChars, hparse, hsplit]
  rw [if_neg hst_ne, if_neg (fun hno => hno hst_mem),
    if_neg hsne, if_neg hhttp,
    urlunparse_build s hst P hsne hst_ne (Or.inr hPh)]
  have hC2 : ¬((s ++ ':' :: '/' :: '/' :: (hst ++ P)).getLast? = some '/' ∧
      P ≠ [] ∧ P ≠ ['/']) := by
    rcases hcase with rfl | hlast
    · rintro ⟨-, -, hroot⟩
      exact hroot rfl
    · rintro ⟨hgl, -, -⟩
      rw [getLast_build s hst P hPne] at hgl
      exact hlast hgl
  rw [if_neg hC2]
  simp only [hparse, hsplit]
  rw [if_neg hPne]

theorem mem_of_getLast (l : List Char) (a : Char) (h : l.getLast? = some a) :
    a ∈ l := by
  induction l with
  | nil => cases h
  | cons x xs ih =>
    cases xs with
    | nil =>
      simp only [List.getLast?_singleton, Option.some.injEq] at h
      simp [h]
    | cons y ys =>
      rw [List.getLast?_cons_cons] at h
      exact List.mem_cons_of_mem _ (ih h)

/-- C9 (counterexample): `normalize_url` is not idempotent on accepted
URLs: the accepted canonical form of `https://good-apps.jp/a//` is
`https://good-apps.jp/a/` (only one trailing slash is dropped), and
normalizing that accepted output again gives `https://good-apps.jp/a`. -/
theorem normalize_url_idempotent_cex :
    normalize_url "https://good-apps.jp/a//"
      = .ok (some "https://good-apps.jp/a/") ∧
    normalize_url "https://good-apps.jp/a/"
      = .ok (some "https://good-apps.jp/a") ∧
    ("https://good-apps.jp/a/" : String) ≠ "https://good-apps.jp/a" := by
  exact ⟨by decide, by decide, by decide⟩

/-- Inversion of an accepted `normalize_url`. -/
theorem normalize_url_ok_inv (u v : String)
    (h : normalize_url u = .ok (some v)) :
    normalizeUrlChars u.data = .ok (some v.data) := by
  cases hw : normalizeUrlChars u.data with
  | error e =>
    simp only [normalize_url, hw] at h
    cases h
  | ok r =>
    simp only [normalize_url, hw] at h
    cases r with
    | none => simp at h
    | some w =>
      have hvw : List.asString w = v := by simpa using h
      rw [← hvw]
      rfl

/-- C9 (amended): `normalize_url` is idempotent on every accepted
canonical form `v` whose final path segment contains no `;` and which
either does not end in `/` or is a bare root (exactly the three slashes
of `scheme://host/`).  The excluded cases are real non-fixed-points: a
trailing `/` left by a `//`-ending path is stripped again, and a `;`
exposed in the final segment is re-split as params. -/
theorem normalize_url_idempotent_on_clean (u v : String)
    (h : normalize_url u = .ok (some v))
    (hsemi : ';' ∉ afterLastSlash v.data)
    (hslash : v.data.getLast? ≠ some '/' ∨ v.data.count '/' = 3) :
    normalize_url v = .ok (some v) := by
  have hw := normalize_url_ok_inv u v h
  obtain ⟨pr, s, hst, P, hpr, hweq, hv2, hlow, hhttp, -, hh, hPne, hPh,
    hhash, hq, hcl⟩ := normalize_shape u.data v.data hw
  have hPslash : '/' ∈ P := by
    cases P with
    | nil => cases hPh
    | cons a t =>
      simp only [List.head?_cons, Option.some.injEq] at hPh
      simp [hPh]
  have hvP : v.data = (s ++ ':' :: '/' :: '/' :: hst) ++ P := by
    rw [hweq]; simp
  rw [hvP, afterLastSlash_append _ _ hPslash] at hsemi
  have hsplitP := paramsSplitIf_no_semi s P hPslash hsemi
  have hall : ∀ c ∈ s, isSchemeChar c = true := by
    cases s with
    | nil => simp
    | cons a as =>
      simp only [validSchemeName, Bool.and_eq_true, List.all_eq_true]
        at hv2
      exact hv2.2
  have hs_noslash : '/' ∉ s := fun hc =>
    (isSchemeChar_no_specials '/' (hall '/' hc)).2.1 rfl
  have hcase : P = ['/'] ∨ P.getLast? ≠ some '/' := by
    rcases hslash with hgl | hcnt
    · right
      intro hPl
      apply hgl
      rw [hvP, List.getLast?_append, hPl]
      rfl
    · rw [hvP, List.count_append] at hcnt
      have hAcount : List.count '/' (s ++ ':' :: '/' :: '/' :: hst)
          = 2 := by
        rw [List.count_append, List.count_eq_zero.mpr hs_noslash]
        rcases hh with rfl | rfl <;> decide
      rw [hAcount] at hcnt
      have hPcount : List.count '/' P = 1 := by omega
      obtain ⟨rest, rfl⟩ : ∃ rest, P = '/' :: rest := by
        cases P with
        | nil => cases hPh
        | cons a t =>
          simp only [List.head?_cons, Option.some.injEq] at hPh
          exact ⟨t, by rw [hPh]⟩
      have hrest : List.count '/' rest = 0 := by
        rw [List.count_cons] at hPcount
        simpa using hPcount
      have hrest2 : '/' ∉ rest := List.count_eq_zero.mp hrest
      cases rest with
      | nil => exact Or.inl rfl
      | cons r rs =>
        right
        rw [List.getLast?_cons_cons]
        intro hgl2
        exact hrest2 (mem_of_getLast (r :: rs) '/' hgl2)
  unfold normalize_url
  rw [hweq]
  simp only [normalize_fixed s hst P hv2 hlow hhttp hh hPne hPh hhash hq
    hcl hsplitP hcase, Option.map]
  rw [← hweq]
  rfl

/-- C9 (witness): the amended idempotence applied to the canonical form
of `http://good-apps.jp/foo/`. -/
theorem normalize_url_idempotent_on_clean_witness :
    normalize_url "https://good-apps.jp/foo"
      = .ok (some "https://good-apps.jp/foo") :=
  normalize_url_idempotent_on_clean "http://good-apps.jp/foo/"
    "https://good-apps.jp/foo" (by decide) (by decide)
    (Or.inl (by decide))

